import Mathlib

/-!
# Onyx storage engine — shallow embedding and verification

This file embeds the storage-engine core of the Onyx repository
(`src/store/{vector,graph,history,transaction}.rs`,
`src/store/persistent/rocks_graph.rs`, `src/model/{edge,version}.rs`,
`src/error.rs`) in Lean and settles the frozen specification claims
against it.

Modelling conventions:
* Rust `Uuid` values are abstracted to natural numbers.
* Rust `HashMap` values are modelled as association lists kept in key
  insertion order: `insert` overwrites in place or appends, `remove`
  filters the key out, and lookup returns the first binding.  The
  modelled store operations never rely on `HashMap` iteration order
  except for `InMemoryVectorStore::search`, whose iteration over the
  embeddings map is modelled as iteration in insertion order (noted at
  the definition).
* Rust `f32`/`f64` arithmetic is idealised as real-number arithmetic,
  and `DateTime<Utc>` timestamps as integers.
* Fallible Rust functions returning `OnyxResult<T>` become functions
  into `Except OnyxError _`; an error result leaves the store state
  unchanged exactly when the Rust method returns before mutating.
* Rust loops whose travelled structure is supplied by the caller are
  modelled by structural recursion; the two loops without a structural
  bound (`sift_up`/`sift_down` inside `BinaryHeap` and the parent walk
  of `get_content_at_version`) take an explicit fuel argument, with the
  fuel chosen (or quantified) so that exhaustion is provably
  unreachable exactly when the Rust loop terminates.
-/

namespace Onyx

/-- 128-bit UUIDs (`uuid::Uuid`) are modelled as natural numbers;
`Uuid::nil()` is `0`. -/
abbrev Uuid := Nat

/-- `OnyxError` from `src/error.rs`.  The `SerializationError` and
`IoError` variants carry foreign payloads that the modelled code never
constructs, so they are not represented. -/
inductive OnyxError where
  | nodeNotFound (id : Uuid)
  | edgeNotFound (id : Uuid)
  | versionNotFound (v : String)
  | branchNotFound (name : String)
  | branchAlreadyExists (name : String)
  | duplicateNode (id : Uuid)
  | duplicateEdge (id : Uuid)
  | transactionFailed (msg : String)
  | dimensionMismatch (expected got : Nat)
  | invalidQuery (msg : String)
  | ingestionError (msg : String)
  | internal (msg : String)
  | notFound (msg : String)
  deriving DecidableEq

/-- The `Display` rendering of `OnyxError` given by the `thiserror`
attributes in `src/error.rs` (with the abstracted id rendering). -/
def OnyxError.message : OnyxError → String
  | .nodeNotFound id => "Node not found: " ++ toString id
  | .edgeNotFound id => "Edge not found: " ++ toString id
  | .versionNotFound v => "Version not found: " ++ v
  | .branchNotFound n => "Branch not found: " ++ n
  | .branchAlreadyExists n => "Branch already exists: " ++ n
  | .duplicateNode id => "Duplicate node ID: " ++ toString id
  | .duplicateEdge id => "Duplicate edge ID: " ++ toString id
  | .transactionFailed m => "Transaction failed: " ++ m
  | .dimensionMismatch e g =>
      "Embedding dimension mismatch: expected " ++ toString e ++ ", got " ++ toString g
  | .invalidQuery m => "Invalid query: " ++ m
  | .ingestionError m => "Ingestion error: " ++ m
  | .internal m => "Internal error: " ++ m
  | .notFound m => "Not found: " ++ m

/-- Whether a fallible operation succeeded (`Result::is_ok`). -/
def exceptIsOk {ε α : Type} : Except ε α → Bool
  | .ok _ => true
  | .error _ => false

/-! ## Association lists modelling `std::collections::HashMap` -/

section AList

variable {κ α β : Type} [DecidableEq κ]

/-- First value bound to key `k` (models `HashMap::get`). -/
def alookup (m : List (κ × α)) (k : κ) : Option α :=
  match m with
  | [] => none
  | p :: rest => if p.1 = k then some p.2 else alookup rest k

/-- The keys of the map, in insertion order. -/
def akeys (m : List (κ × α)) : List κ := m.map Prod.fst

/-- Models `HashMap::contains_key`. -/
def acontains (m : List (κ × α)) (k : κ) : Bool := (alookup m k).isSome

/-- Models `HashMap::insert`: overwrite the existing binding in place,
otherwise append a fresh binding. -/
def aupsert (m : List (κ × α)) (k : κ) (v : α) : List (κ × α) :=
  match m with
  | [] => [(k, v)]
  | p :: rest => if p.1 = k then (k, v) :: rest else p :: aupsert rest k v

/-- Models `HashMap::remove` (value-discarding form). -/
def aerase (m : List (κ × α)) (k : κ) : List (κ × α) :=
  m.filter (fun p => p.1 ≠ k)

/-- Models `map.get_mut(&k).map(|v| …)`: rewrite the value bound to `k`
if the key is present, and do nothing otherwise. -/
def aadjust (m : List (κ × α)) (k : κ) (f : α → α) : List (κ × α) :=
  m.map (fun p => if p.1 = k then (k, f p.2) else p)

/-- Models `map.entry(k).or_default()` for `Vec`-valued maps. -/
def aentryDefault (m : List (κ × List β)) (k : κ) : List (κ × List β) :=
  if acontains m k then m else m ++ [(k, [])]

/-- Models `map.entry(k).or_default().push(v)`. -/
def aentryPush (m : List (κ × List β)) (k : κ) (v : β) : List (κ × List β) :=
  if acontains m k then aadjust m k (fun l => l ++ [v]) else m ++ [(k, [v])]

end AList

/-! ## Data model (`src/model/node.rs`, `src/model/edge.rs`) -/

/-- `NodeType`/`NodeExtension` payloads, provenance, metadata, hashes
and timestamps are never consulted by the modelled store operations
(the graph store treats `Node` values opaquely apart from `id`), so
`Node` keeps only the fields the claims mention. -/
structure Node where
  id : Uuid
  name : String
  content : String
  deriving DecidableEq

/-- `EdgeType` from `src/model/edge.rs`. -/
inductive EdgeType where
  | defines
  | calls
  | imports
  | documents
  | testsOf
  | versionedBy
  | containsEt
  | implementsEt
  | dependsOn
  | configures
  deriving DecidableEq

/-- `Edge` from `src/model/edge.rs`.  `confidence`, `metadata` and
`temporal` are never consulted by the operations the claims are about
and are omitted. -/
structure Edge where
  id : Uuid
  edge_type : EdgeType
  source_id : Uuid
  target_id : Uuid
  deriving DecidableEq

/-! ## Vector store (`src/store/vector.rs`, `InMemoryVectorStore`) -/

/-- `InMemoryVectorStore`: a map from node id to embedding plus an
optional declared dimensionality.  The `embeddings` map is modelled in
insertion order. -/
structure InMemoryVectorStore where
  embeddings : List (Uuid × List ℝ)
  dimensions : Option Nat

namespace InMemoryVectorStore

/-- `InMemoryVectorStore::new()` — no declared dimension. -/
def new : InMemoryVectorStore := { embeddings := [], dimensions := none }

/-- `InMemoryVectorStore::with_dimensions(d)`. -/
def with_dimensions (d : Nat) : InMemoryVectorStore :=
  { embeddings := [], dimensions := some d }

/-- `InMemoryVectorStore::insert`: dimension guard, then
`embeddings.insert(id, embedding)`. -/
def insert (s : InMemoryVectorStore) (id : Uuid) (embedding : List ℝ) :
    Except OnyxError InMemoryVectorStore :=
  match s.dimensions with
  | some d =>
    if d ≠ embedding.length then
      .error (.dimensionMismatch d embedding.length)
    else
      .ok { s with embeddings := aupsert s.embeddings id embedding }
  | none => .ok { s with embeddings := aupsert s.embeddings id embedding }

/-- `InMemoryVectorStore::get`. -/
def get (s : InMemoryVectorStore) (id : Uuid) : Option (List ℝ) :=
  alookup s.embeddings id

/-- `InMemoryVectorStore::len`. -/
def lenStore (s : InMemoryVectorStore) : Nat := s.embeddings.length

/-- `InMemoryVectorStore::cosine_similarity` with `f32` idealised
as `ℝ`: `dot / (‖a‖·‖b‖)`, and `0` when either norm is zero. -/
noncomputable def cosine_similarity (a b : List ℝ) : ℝ :=
  let dot := ((a.zip b).map (fun p => p.1 * p.2)).sum
  let norm_a := Real.sqrt ((a.map (fun x => x * x)).sum)
  let norm_b := Real.sqrt ((b.map (fun x => x * x)).sum)
  if norm_a = 0 ∨ norm_b = 0 then 0 else dot / (norm_a * norm_b)

end InMemoryVectorStore

/-! ### `std::collections::BinaryHeap` over `ScoredItem`

`ScoredItem`'s `Ord` implementation reverses the score comparison, so
the `BinaryHeap` in `search` is a min-heap on the score: `peek`/`pop`
see the *smallest* score.  The heap's backing `Vec` is modelled as a
list; `into_iter` yields that list.  The `sift_up` loop strictly
decreases the hole index, so fuel `i + 1` at starting index `i` is
never exhausted; the `sift_down` loop strictly increases it below the
length, so fuel `l.length` is never exhausted. -/

/-- A scored item `(node id, score)`. -/
abbrev ScoredItem := Uuid × ℝ

/-- `BinaryHeap` sift-up after inserting at index `i` (min-heap on the
score, mirroring the reversed `Ord for ScoredItem`). -/
noncomputable def siftUp : Nat → List ScoredItem → Nat → List ScoredItem
  | 0, l, _ => l
  | _ + 1, l, 0 => l
  | fuel + 1, l, i + 1 =>
    let parent := i / 2
    match l.get? (i + 1), l.get? parent with
    | some x, some p =>
      if x.2 < p.2 then siftUp fuel ((l.set (i + 1) p).set parent x) parent else l
    | _, _ => l

/-- `BinaryHeap::push`: append, then sift up from the last index. -/
noncomputable def heapPush (l : List ScoredItem) (x : ScoredItem) : List ScoredItem :=
  siftUp (l.length + 1) (l ++ [x]) l.length

/-- `BinaryHeap` sift-down from index `i` (min-heap on the score; the
child comparison mirrors the reversed `Ord`, preferring the right child
on ties). -/
noncomputable def siftDown : Nat → List ScoredItem → Nat → List ScoredItem
  | 0, l, _ => l
  | fuel + 1, l, i =>
    match l.get? i, l.get? (2 * i + 1) with
    | some x, some lc =>
      let cc : Nat × ScoredItem :=
        match l.get? (2 * i + 2) with
        | some rc => if rc.2 ≤ lc.2 then (2 * i + 2, rc) else (2 * i + 1, lc)
        | none => (2 * i + 1, lc)
      if cc.2.2 < x.2 then siftDown fuel ((l.set i cc.2).set cc.1 x) cc.1 else l
    | _, _ => l

/-- `BinaryHeap::pop`: remove the root, move the last element to the
root and sift it down. -/
noncomputable def heapPop (l : List ScoredItem) : List ScoredItem :=
  match l.getLast? with
  | none => []
  | some last =>
    match l.dropLast with
    | [] => []
    | b :: rest => siftDown l.length ((b :: rest).set 0 last) 0

namespace InMemoryVectorStore

/-- The body of the `for (id, embedding) in embeddings.iter()` loop of
`InMemoryVectorStore::search`: score the item, then keep a size-`k`
min-heap of the best scores. -/
noncomputable def searchFold (query : List ℝ) (k : Nat)
    (heap : List ScoredItem) (item : Uuid × List ℝ) : List ScoredItem :=
  let score := cosine_similarity query item.2
  if heap.length < k then heapPush heap (item.1, score)
  else
    match heap.get? 0 with
    | some mn => if mn.2 < score then heapPush (heapPop heap) (item.1, score) else heap
    | none => heap

/-- Stable insertion into a list sorted by descending score: the new
element goes in front of the first element whose score it reaches. -/
noncomputable def insertDesc (x : ScoredItem) : List ScoredItem → List ScoredItem
  | [] => [x]
  | y :: l => if y.2 ≤ x.2 then x :: y :: l else y :: insertDesc x l

/-- Models `results.sort_by(|a, b| b.1.partial_cmp(&a.1)…)`: a stable
sort by descending score.  (`slice::sort_by` is stable, and all stable
sorts under one comparator agree, so insertion sort is a faithful
model.) -/
noncomputable def sortDesc (l : List ScoredItem) : List ScoredItem :=
  l.foldr insertDesc []

/-- `InMemoryVectorStore::search`: dimension guard, heap-based top-`k`
selection over the embeddings map (iterated in insertion order — the
Rust `HashMap` iteration order is arbitrary, which this model resolves
in the spec's favour), then a stable descending sort of the heap's
contents. -/
noncomputable def search (s : InMemoryVectorStore) (query : List ℝ) (k : Nat) :
    Except OnyxError (List ScoredItem) :=
  match s.dimensions with
  | some d =>
    if query.length ≠ d then .error (.dimensionMismatch d query.length)
    else .ok (sortDesc (s.embeddings.foldl (searchFold query k) []))
  | none => .ok (sortDesc (s.embeddings.foldl (searchFold query k) []))

/-- Modelled from the spec: "`search(q, k)` — returns the `k` pairs
`(id, score)` with the highest cosine similarity … Ordering: descending
by score; ties broken by insertion order (stable).  If fewer than `k`
vectors exist, returns all."  A stable descending sort of the whole
scored map (in insertion order), truncated to `k`. -/
noncomputable def specSearch (s : InMemoryVectorStore) (query : List ℝ) (k : Nat) :
    List ScoredItem :=
  (sortDesc (s.embeddings.map (fun p => (p.1, cosine_similarity query p.2)))).take k

end InMemoryVectorStore

/-- C5 scenario: three vectors inserted in id order `1 ↦ [4,3]`,
`2 ↦ [4,-3]`, `3 ↦ [1,0]`, no declared dimension.  Against the query
`[1,0]` the first two tie at score `4/5` and the third scores `1`. -/
noncomputable def cstore : InMemoryVectorStore :=
  { embeddings := [(1, [4, 3]), (2, [4, -3]), (3, [1, 0])], dimensions := none }

/-! ## Graph store (`src/store/graph.rs`, `InMemoryGraphStore`) -/

/-- `InMemoryGraphStore`: node and edge maps plus outbound/inbound
adjacency lists (`HashMap<Uuid, Vec<Uuid>>`). -/
structure InMemoryGraphStore where
  nodes : List (Uuid × Node)
  edges : List (Uuid × Edge)
  outbound : List (Uuid × List Uuid)
  inbound : List (Uuid × List Uuid)
  deriving DecidableEq

namespace InMemoryGraphStore

/-- `InMemoryGraphStore::new()`. -/
def newStore : InMemoryGraphStore :=
  { nodes := [], edges := [], outbound := [], inbound := [] }

/-- `InMemoryGraphStore::add_node`. -/
def add_node (g : InMemoryGraphStore) (node : Node) :
    Except OnyxError InMemoryGraphStore :=
  if acontains g.nodes node.id then .error (.duplicateNode node.id)
  else
    .ok { g with
      nodes := aupsert g.nodes node.id node,
      outbound := aentryDefault g.outbound node.id,
      inbound := aentryDefault g.inbound node.id }

/-- `InMemoryGraphStore::get_node`. -/
def get_node (g : InMemoryGraphStore) (id : Uuid) : Option Node :=
  alookup g.nodes id

/-- `InMemoryGraphStore::add_edge`: both endpoints must exist before
anything is written. -/
def add_edge (g : InMemoryGraphStore) (edge : Edge) :
    Except OnyxError InMemoryGraphStore :=
  if acontains g.nodes edge.source_id then
    if acontains g.nodes edge.target_id then
      .ok { g with
        edges := aupsert g.edges edge.id edge,
        outbound := aentryPush g.outbound edge.source_id edge.id,
        inbound := aentryPush g.inbound edge.target_id edge.id }
    else .error (.nodeNotFound edge.target_id)
  else .error (.nodeNotFound edge.source_id)

/-- `InMemoryGraphStore::get_edge`. -/
def get_edge (g : InMemoryGraphStore) (id : Uuid) : Option Edge :=
  alookup g.edges id

/-- `InMemoryGraphStore::remove_edge`. -/
def remove_edge (g : InMemoryGraphStore) (id : Uuid) :
    Except OnyxError InMemoryGraphStore :=
  match alookup g.edges id with
  | some edge =>
    .ok { g with
      edges := aerase g.edges id,
      outbound := aadjust g.outbound edge.source_id (fun l => l.filter (· ≠ id)),
      inbound := aadjust g.inbound edge.target_id (fun l => l.filter (· ≠ id)) }
  | none => .ok g

/-- The `for edge_id in outbound_edges.iter().chain(inbound_edges.iter())`
loop of `InMemoryGraphStore::remove_node`, over the state
`(edges, outbound, inbound)`. -/
def removeNodeLoop (id : Uuid) :
    List Uuid →
    List (Uuid × Edge) × List (Uuid × List Uuid) × List (Uuid × List Uuid) →
    List (Uuid × Edge) × List (Uuid × List Uuid) × List (Uuid × List Uuid)
  | [], st => st
  | eid :: rest, (edges, outb, inb) =>
    match alookup edges eid with
    | some edge =>
      if edge.source_id = id then
        removeNodeLoop id rest
          (aerase edges eid, outb,
           aadjust inb edge.target_id (fun l => l.filter (· ≠ eid)))
      else
        removeNodeLoop id rest
          (aerase edges eid,
           aadjust outb edge.source_id (fun l => l.filter (· ≠ eid)), inb)
    | none => removeNodeLoop id rest (edges, outb, inb)

/-- `InMemoryGraphStore::remove_node`: cascade over the adjacency
lists of `id`, then drop the adjacency entries and the node itself. -/
def remove_node (g : InMemoryGraphStore) (id : Uuid) :
    Except OnyxError InMemoryGraphStore :=
  let outbound_edges := (alookup g.outbound id).getD []
  let inbound_edges := (alookup g.inbound id).getD []
  let st := removeNodeLoop id (outbound_edges ++ inbound_edges)
    (g.edges, g.outbound, g.inbound)
  .ok { nodes := aerase g.nodes id,
        edges := st.1,
        outbound := aerase st.2.1 id,
        inbound := aerase st.2.2 id }

/-- `InMemoryGraphStore::get_neighbors` (the in-memory implementation
never returns an error, so the `OnyxResult` wrapper is dropped). -/
def get_neighbors (g : InMemoryGraphStore) (id : Uuid)
    (edge_types : Option (List EdgeType)) : List (Edge × Node) :=
  let edge_ids := (alookup g.outbound id).getD []
  edge_ids.filterMap (fun eid =>
    match alookup g.edges eid with
    | some edge =>
      match edge_types with
      | some types =>
        if edge.edge_type ∈ types then
          (alookup g.nodes edge.target_id).map (fun n => (edge, n))
        else none
      | none => (alookup g.nodes edge.target_id).map (fun n => (edge, n))
    | none => none)

/-- `InMemoryGraphStore::get_inbound`. -/
def get_inbound (g : InMemoryGraphStore) (id : Uuid)
    (edge_types : Option (List EdgeType)) : List (Edge × Node) :=
  let edge_ids := (alookup g.inbound id).getD []
  edge_ids.filterMap (fun eid =>
    match alookup g.edges eid with
    | some edge =>
      match edge_types with
      | some types =>
        if edge.edge_type ∈ types then
          (alookup g.nodes edge.source_id).map (fun n => (edge, n))
        else none
      | none => (alookup g.nodes edge.source_id).map (fun n => (edge, n))
    | none => none)

/-- `GraphStore::node_count` for the in-memory store. -/
def node_count (g : InMemoryGraphStore) : Nat := g.nodes.length

/-- `GraphStore::edge_count` for the in-memory store. -/
def edge_count (g : InMemoryGraphStore) : Nat := g.edges.length

end InMemoryGraphStore

namespace InMemoryGraphStore

/-- The outbound adjacency list of a node (`unwrap_or_default`). -/
def outList (g : InMemoryGraphStore) (k : Uuid) : List Uuid :=
  (alookup g.outbound k).getD []

/-- The inbound adjacency list of a node (`unwrap_or_default`). -/
def inList (g : InMemoryGraphStore) (k : Uuid) : List Uuid :=
  (alookup g.inbound k).getD []

/-- Adjacency consistency of an in-memory graph store (the invariant
the store's own operations maintain): every edge is indexed in the
outbound list of its source and the inbound list of its target, every
adjacency entry refers to a stored edge with the matching endpoint, and
adjacency lists have no duplicates. -/
def GraphWF (g : InMemoryGraphStore) : Prop :=
  (∀ p ∈ g.edges, p.1 ∈ g.outList p.2.source_id ∧ p.1 ∈ g.inList p.2.target_id) ∧
  (∀ q ∈ g.outbound,
    (∀ eid ∈ q.2, (alookup g.edges eid).map Edge.source_id = some q.1) ∧ q.2.Nodup) ∧
  (∀ q ∈ g.inbound,
    (∀ eid ∈ q.2, (alookup g.edges eid).map Edge.target_id = some q.1) ∧ q.2.Nodup)

instance decidableGraphWF (g : InMemoryGraphStore) : Decidable g.GraphWF := by
  unfold GraphWF
  infer_instance

end InMemoryGraphStore

/-! ## RocksDB graph store (`src/store/persistent/rocks_graph.rs`)

The RocksDB column families `nodes`, `edges`, `node_outbound` and
`node_inbound` are modelled as key-value maps; the 32-byte adjacency
keys `node_id ‖ edge_id` become pairs.  Serialization and RocksDB I/O
failures are not modelled (`put_cf`/`get_cf` always succeed). -/

structure RocksGraphStore where
  nodes : List (Uuid × Node)
  edges : List (Uuid × Edge)
  out_adj : List ((Uuid × Uuid) × Unit)
  in_adj : List ((Uuid × Uuid) × Unit)
  deriving DecidableEq

namespace RocksGraphStore

/-- The store over a freshly created database: all column families
empty. -/
def emptyStore : RocksGraphStore :=
  { nodes := [], edges := [], out_adj := [], in_adj := [] }

/-- `RocksGraphStore::add_node`: unconditional `put_cf` (upsert). -/
def add_node (g : RocksGraphStore) (node : Node) :
    Except OnyxError RocksGraphStore :=
  .ok { g with nodes := aupsert g.nodes node.id node }

/-- `RocksGraphStore::get_node`. -/
def get_node (g : RocksGraphStore) (id : Uuid) : Option Node :=
  alookup g.nodes id

/-- `RocksGraphStore::add_edge`: writes `edges[edge.id]`,
`out_adj[source ‖ id]` and `in_adj[target ‖ id]`.  Unlike the
in-memory implementation it performs no endpoint existence check. -/
def add_edge (g : RocksGraphStore) (edge : Edge) :
    Except OnyxError RocksGraphStore :=
  .ok { g with
    edges := aupsert g.edges edge.id edge,
    out_adj := aupsert g.out_adj (edge.source_id, edge.id) (),
    in_adj := aupsert g.in_adj (edge.target_id, edge.id) () }

/-- `RocksGraphStore::get_edge`. -/
def get_edge (g : RocksGraphStore) (id : Uuid) : Option Edge :=
  alookup g.edges id

end RocksGraphStore

/-! ## History store (`src/model/version.rs`,
`src/store/history.rs`, `InMemoryHistoryStore`) -/

/-- `Diff` from `src/model/version.rs`. -/
inductive Diff where
  | initial (content : String)
  | contentChanged (patch : String) (additions deletions : Nat)
  | metadataChanged (changed_fields : List (String × String × String))
  | composite (diffs : List Diff)

/-- `VersionEntry` from `src/model/version.rs` (timestamps as
integers). -/
structure VersionEntry where
  version_id : String
  entity_id : Uuid
  parent_version : Option String
  branch : String
  diff : Diff
  commit_id : Option String
  author : Option String
  message : Option String
  timestamp : Int

/-- `Branch` from `src/model/version.rs`. -/
structure Branch where
  name : String
  head : String
  base : String
  created_at : Int
  merged_into : Option String

/-- `Branch::new`: head and base start at the fork point; the clock is
not modelled, so `created_at` is `0`. -/
def Branch.newBranch (name : String) (base_version : String) : Branch :=
  { name := name, head := base_version, base := base_version,
    created_at := 0, merged_into := none }

/-- `InMemoryHistoryStore`. -/
structure InMemoryHistoryStore where
  versions : List (String × VersionEntry)
  entity_versions : List (Uuid × List String)
  branches : List (String × Branch)
  branch_heads : List ((Uuid × String) × String)

namespace InMemoryHistoryStore

/-- `InMemoryHistoryStore::new()`. -/
def newStore : InMemoryHistoryStore :=
  { versions := [], entity_versions := [], branches := [], branch_heads := [] }

/-- `InMemoryHistoryStore::record_version`: the parent (when given)
must already exist; then the entry is stored, appended to the entity's
version index, and made the branch head of `(entity, branch)`. -/
def record_version (s : InMemoryHistoryStore) (entry : VersionEntry) :
    Except OnyxError (String × InMemoryHistoryStore) :=
  let applied : InMemoryHistoryStore :=
    { versions := aupsert s.versions entry.version_id entry,
      entity_versions := aentryPush s.entity_versions entry.entity_id entry.version_id,
      branches := s.branches,
      branch_heads := aupsert s.branch_heads (entry.entity_id, entry.branch) entry.version_id }
  match entry.parent_version with
  | some parent =>
    if acontains s.versions parent then .ok (entry.version_id, applied)
    else .error (.versionNotFound parent)
  | none => .ok (entry.version_id, applied)

/-- `InMemoryHistoryStore::get_version`. -/
def get_version (s : InMemoryHistoryStore) (version_id : String) :
    Option VersionEntry :=
  alookup s.versions version_id

/-- One diff application step of the reconstruction loop in
`get_content_at_version`.  Note that inside `Diff::Composite` the
source inspects only `ContentChanged` children (non-recursively). -/
def applyDiff (content : String) : Diff → String
  | .initial c => c
  | .contentChanged patch _ _ => patch
  | .metadataChanged _ => content
  | .composite ds =>
    ds.foldl (fun acc d =>
      match d with
      | Diff.contentChanged patch _ _ => patch
      | _ => acc) content

/-- The parent-walking loop of `get_content_at_version`, collecting the
chain from the requested version towards the root (requested version
first, exactly as the Rust `chain` vector before `reverse`).  `none`
means the fuel ran out while the walk was still following parents —
i.e. the Rust loop would still be running. -/
def collectChain (versions : List (String × VersionEntry)) (entity_id : Uuid) :
    Option String → Nat → Option (Except OnyxError (List VersionEntry))
  | none, _ => some (.ok [])
  | some _, 0 => none
  | some vid, fuel + 1 =>
    match alookup versions vid with
    | none => some (.error (.versionNotFound vid))
    | some entry =>
      if entry.entity_id ≠ entity_id then
        some (.error (.internal ("Version " ++ vid ++ " belongs to entity " ++
          toString entry.entity_id ++ ", not " ++ toString entity_id)))
      else
        (collectChain versions entity_id entry.parent_version fuel).map
          (fun r => r.map (fun rest => entry :: rest))

/-- `InMemoryHistoryStore::get_content_at_version`, fuel-indexed:
collect the chain, reverse it, and fold the diffs starting from the
empty string. -/
def get_content_at_version (s : InMemoryHistoryStore) (entity_id : Uuid)
    (version_id : String) (fuel : Nat) : Option (Except OnyxError String) :=
  (collectChain s.versions entity_id (some version_id) fuel).map
    (fun r => r.map (fun chain =>
      chain.reverse.foldl (fun content entry => applyDiff content entry.diff) ""))

/-- `InMemoryHistoryStore::get_head`. -/
def get_head (s : InMemoryHistoryStore) (entity_id : Uuid) (branch : String) :
    Option String :=
  alookup s.branch_heads (entity_id, branch)

/-- `InMemoryHistoryStore::create_branch`. -/
def create_branch (s : InMemoryHistoryStore) (name : String)
    (base_version : String) : Except OnyxError InMemoryHistoryStore :=
  if acontains s.versions base_version then
    if acontains s.branches name then .error (.branchAlreadyExists name)
    else .ok { s with branches := aupsert s.branches name (Branch.newBranch name base_version) }
  else .error (.versionNotFound base_version)

/-- `InMemoryHistoryStore::get_branch`. -/
def get_branch (s : InMemoryHistoryStore) (name : String) : Option Branch :=
  alookup s.branches name

/-- `InMemoryHistoryStore::merge_branch`.  The generated
`new_version_id()` and `Utc::now()` are supplied as the explicit
arguments `merge_version_id` and `now`; `Uuid::nil()` is `0`. -/
def merge_branch (s : InMemoryHistoryStore) (source target : String)
    (merge_version_id : String) (now : Int) :
    Except OnyxError (String × InMemoryHistoryStore) :=
  match alookup s.branches source with
  | none => .error (.branchNotFound source)
  | some source_branch =>
    if acontains s.branches target then
      let branches1 := aadjust s.branches source
        (fun b => { b with merged_into := some target })
      let branches2 := aadjust branches1 target
        (fun b => { b with head := merge_version_id })
      let merge_entry : VersionEntry :=
        { version_id := merge_version_id
          entity_id := 0
          parent_version := some source_branch.head
          branch := target
          diff := .initial ("Merge branch '" ++ source ++ "' into '" ++ target ++ "'")
          commit_id := none
          author := none
          message := some ("Merge branch '" ++ source ++ "' into '" ++ target ++ "'")
          timestamp := now }
      record_version { s with branches := branches2 } merge_entry
    else .error (.branchNotFound target)

/-- `InMemoryHistoryStore::version_count`. -/
def version_count (s : InMemoryHistoryStore) : Nat := s.versions.length

/-- A sequence of `record_version` calls, stopping at the first
error. -/
def recordAll : InMemoryHistoryStore → List VersionEntry →
    Except OnyxError InMemoryHistoryStore
  | s, [] => .ok s
  | s, entry :: rest =>
    match s.record_version entry with
    | .ok (_, s') => recordAll s' rest
    | .error e => .error e

/-- The most recently recorded entry of a list that belongs to
`(entity, branch)`. -/
def lastFor (es : List VersionEntry) (e : Uuid) (b : String) :
    Option VersionEntry :=
  es.reverse.find? (fun en => en.entity_id = e ∧ en.branch = b)

/-- Modelled from the spec: invariant I4 / property P4 — "`get_head(e,b)`
= `argmax_t { v : v.entity_id=e ∧ v.branch=b }`", the `version_id` of
the latest-timestamped stored entry for `(entity, branch)`. -/
def specBranchHead (s : InMemoryHistoryStore) (e : Uuid) (b : String) :
    Option String :=
  (((s.versions.map Prod.snd).filter
      (fun en => en.entity_id = e ∧ en.branch = b)).argmax
    (fun en => en.timestamp)).map (fun en => en.version_id)

/-- One entry of the C3 chain: `Initial{content}` when it has no
parent, `ContentChanged{patch: content, 1, 1}` otherwise. -/
def chainEntry (e : Uuid) (parent : Option String) (vid : String)
    (content : String) : VersionEntry :=
  { version_id := vid
    entity_id := e
    parent_version := parent
    branch := "main"
    diff := match parent with
      | none => .initial content
      | some _ => .contentChanged content 1 1
    commit_id := none
    author := none
    message := none
    timestamp := 0 }

/-- The entries of the C3 chain over `(version_id, content)` pairs:
each entry's parent is the previous entry's id. -/
def chainEntries (e : Uuid) (parent : Option String) :
    List (String × String) → List VersionEntry
  | [] => []
  | (vid, c) :: rest => chainEntry e parent vid c :: chainEntries e (some vid) rest

/-- The id the entry after a chain segment uses as its parent: the
last id of the segment, or the incoming parent when it is empty. -/
def lastParent (parent : Option String) :
    List (String × String) → Option String
  | [] => parent
  | (vid, _) :: rest => lastParent (some vid) rest

/-- Record the C3 chain `Initial{c₀}; ContentChanged{c₁}; …` — each
call's parent is the previously recorded id. -/
def recordChain (e : Uuid) : InMemoryHistoryStore → Option String →
    List (String × String) → Except OnyxError InMemoryHistoryStore
  | s, _, [] => .ok s
  | s, parent, (vid, c) :: rest =>
    match s.record_version (chainEntry e parent vid c) with
    | .ok (_, s') => recordChain e s' (some vid) rest
    | .error err => .error err

end InMemoryHistoryStore

/-- History-store states reachable from the empty store by successful
`record_version` calls whose version ids are fresh (never recorded
before) — the discipline of claim C9's first half. -/
inductive ReachableFresh : InMemoryHistoryStore → Prop where
  | protected empty : ReachableFresh InMemoryHistoryStore.newStore
  | protected step {s : InMemoryHistoryStore} {entry : VersionEntry}
      {s' : InMemoryHistoryStore}
      (hs : ReachableFresh s)
      (hfresh : alookup s.versions entry.version_id = none)
      (hrec : s.record_version entry = .ok (entry.version_id, s')) :
      ReachableFresh s'

/-- The versions map admits a topological index order: every entry's
parent sits at a strictly earlier index.  This is the invariant fresh
recording maintains, and it bounds the parent walk. -/
def VersOrdered (l : List (String × VersionEntry)) : Prop :=
  ∀ i (hi : i < l.length), ∀ p, (l.get ⟨i, hi⟩).2.parent_version = some p →
    ∃ j, ∃ hj : j < l.length, j < i ∧ (l.get ⟨j, hj⟩).1 = p

/-! ## Transaction manager (`src/store/transaction.rs`) -/

/-- `TransactionOp`. -/
inductive TransactionOp where
  | insertNode (node : Node)
  | removeNode (id : Uuid)
  | insertEdge (edge : Edge)
  | removeEdge (id : Uuid)
  | insertEmbedding (id : Uuid) (embedding : List ℝ)
  | deleteEmbedding (id : Uuid)
  | recordVersion (entry : VersionEntry)

/-- `AppliedOp` — the undo record kept for rollback. -/
inductive AppliedOp where
  | nodeInserted (id : Uuid)
  | nodeRemoved (node : Node)
  | edgeInserted (id : Uuid)
  | edgeRemoved (edge : Edge)
  | embeddingInserted (id : Uuid)
  | embeddingDeleted (id : Uuid) (embedding : List ℝ)
  | versionRecorded (vid : String)

/-- The synchronous in-memory `TransactionManager`. -/
structure TransactionManager where
  vector_store : InMemoryVectorStore
  graph_store : InMemoryGraphStore
  history_store : InMemoryHistoryStore
  pending_ops : List TransactionOp
  in_transaction : Bool

namespace TransactionManager

/-- The fixed error every `*_blocking` bridge in
`src/store/transaction.rs` returns. -/
def blockingError : OnyxError :=
  .internal "Use synchronous methods for in-memory stores"

/-- `InMemoryGraphStore::add_node_blocking` — a stub that always
fails (it never touches the store). -/
def add_node_blocking (_g : InMemoryGraphStore) (_node : Node) :
    Except OnyxError Unit := .error blockingError

/-- `InMemoryGraphStore::get_node_blocking` — stub. -/
def get_node_blocking (_g : InMemoryGraphStore) (_id : Uuid) :
    Except OnyxError (Option Node) := .error blockingError

/-- `InMemoryGraphStore::remove_node_blocking` — stub. -/
def remove_node_blocking (_g : InMemoryGraphStore) (_id : Uuid) :
    Except OnyxError Unit := .error blockingError

/-- `InMemoryGraphStore::add_edge_blocking` — stub. -/
def add_edge_blocking (_g : InMemoryGraphStore) (_edge : Edge) :
    Except OnyxError Unit := .error blockingError

/-- `InMemoryGraphStore::get_edge_blocking` — stub. -/
def get_edge_blocking (_g : InMemoryGraphStore) (_id : Uuid) :
    Except OnyxError (Option Edge) := .error blockingError

/-- `InMemoryGraphStore::remove_edge_blocking` — stub. -/
def remove_edge_blocking (_g : InMemoryGraphStore) (_id : Uuid) :
    Except OnyxError Unit := .error blockingError

/-- `InMemoryVectorStore::insert_blocking` — stub. -/
def insert_blocking (_s : InMemoryVectorStore) (_id : Uuid)
    (_embedding : List ℝ) : Except OnyxError Unit := .error blockingError

/-- `InMemoryVectorStore::get_blocking` — stub. -/
def get_blocking (_s : InMemoryVectorStore) (_id : Uuid) :
    Except OnyxError (Option (List ℝ)) := .error blockingError

/-- `InMemoryVectorStore::delete_blocking` — stub. -/
def delete_blocking (_s : InMemoryVectorStore) (_id : Uuid) :
    Except OnyxError Unit := .error blockingError

/-- `InMemoryHistoryStore::record_version_blocking` — stub. -/
def record_version_blocking (_s : InMemoryHistoryStore)
    (_entry : VersionEntry) : Except OnyxError String := .error blockingError

/-- `TransactionManager::new()`. -/
def newManager : TransactionManager :=
  { vector_store := InMemoryVectorStore.new,
    graph_store := InMemoryGraphStore.newStore,
    history_store := InMemoryHistoryStore.newStore,
    pending_ops := [],
    in_transaction := false }

/-- `TransactionManager::apply_op`, routing each op through the
blocking bridges. -/
def apply_op (tm : TransactionManager) (op : TransactionOp) :
    Except OnyxError (AppliedOp × TransactionManager) :=
  match op with
  | .insertNode node =>
    match add_node_blocking tm.graph_store node with
    | .error e => .error e
    | .ok _ => .ok (.nodeInserted node.id, tm)
  | .removeNode id =>
    match get_node_blocking tm.graph_store id with
    | .error e => .error e
    | .ok none => .error (.nodeNotFound id)
    | .ok (some node) =>
      match remove_node_blocking tm.graph_store id with
      | .error e => .error e
      | .ok _ => .ok (.nodeRemoved node, tm)
  | .insertEdge edge =>
    match add_edge_blocking tm.graph_store edge with
    | .error e => .error e
    | .ok _ => .ok (.edgeInserted edge.id, tm)
  | .removeEdge id =>
    match get_edge_blocking tm.graph_store id with
    | .error e => .error e
    | .ok none => .error (.edgeNotFound id)
    | .ok (some edge) =>
      match remove_edge_blocking tm.graph_store id with
      | .error e => .error e
      | .ok _ => .ok (.edgeRemoved edge, tm)
  | .insertEmbedding id embedding =>
    match insert_blocking tm.vector_store id embedding with
    | .error e => .error e
    | .ok _ => .ok (.embeddingInserted id, tm)
  | .deleteEmbedding id =>
    match get_blocking tm.vector_store id with
    | .error e => .error e
    | .ok none => .error (.nodeNotFound id)
    | .ok (some embedding) =>
      match delete_blocking tm.vector_store id with
      | .error e => .error e
      | .ok _ => .ok (.embeddingDeleted id embedding, tm)
  | .recordVersion entry =>
    match record_version_blocking tm.history_store entry with
    | .error e => .error e
    | .ok vid => .ok (.versionRecorded vid, tm)

/-- `TransactionManager::rollback_applied`: best-effort undo in
reverse order; every undo goes through a blocking stub whose result is
discarded, so the stores are untouched. -/
def rollback_applied (tm : TransactionManager) (applied : List AppliedOp) :
    TransactionManager :=
  applied.reverse.foldl (fun acc op =>
    match op with
    | .nodeInserted id =>
      let _ := remove_node_blocking acc.graph_store id; acc
    | .nodeRemoved node =>
      let _ := add_node_blocking acc.graph_store node; acc
    | .edgeInserted id =>
      let _ := remove_edge_blocking acc.graph_store id; acc
    | .edgeRemoved edge =>
      let _ := add_edge_blocking acc.graph_store edge; acc
    | .embeddingInserted id =>
      let _ := delete_blocking acc.vector_store id; acc
    | .embeddingDeleted id embedding =>
      let _ := insert_blocking acc.vector_store id embedding; acc
    | .versionRecorded _ => acc) tm

/-- The `for op in ops` loop of `TransactionManager::commit`. -/
def commitLoop : TransactionManager → List TransactionOp → List AppliedOp →
    Except OnyxError Unit × TransactionManager
  | tm, [], _ => (.ok (), { tm with in_transaction := false })
  | tm, op :: rest, applied =>
    match apply_op tm op with
    | .ok (a, tm') => commitLoop tm' rest (applied ++ [a])
    | .error e =>
      let rolled := rollback_applied tm applied
      (.error (.transactionFailed
          ("Operation failed: " ++ e.message ++ ". Rolled back " ++
            toString applied.length ++ " operations.")),
        { rolled with in_transaction := false })

/-- `TransactionManager::begin`. -/
def begin (tm : TransactionManager) :
    Except OnyxError Unit × TransactionManager :=
  if tm.in_transaction then
    (.error (.transactionFailed "Transaction already in progress"), tm)
  else (.ok (), { tm with pending_ops := [], in_transaction := true })

/-- `TransactionManager::add_op`. -/
def add_op (tm : TransactionManager) (op : TransactionOp) :
    Except OnyxError Unit × TransactionManager :=
  if tm.in_transaction then
    (.ok (), { tm with pending_ops := tm.pending_ops ++ [op] })
  else (.error (.transactionFailed "No transaction in progress"), tm)

/-- `TransactionManager::commit`: take the pending ops, apply them in
order, and on the first failure roll back and report
`TransactionFailed`. -/
def commit (tm : TransactionManager) :
    Except OnyxError Unit × TransactionManager :=
  if tm.in_transaction then
    commitLoop { tm with pending_ops := [] } tm.pending_ops []
  else (.error (.transactionFailed "No transaction in progress"), tm)

/-- The `for op in ops { self.add_op(op)?; }` loop of
`execute_batch`. -/
def addOps : TransactionManager → List TransactionOp →
    Except OnyxError Unit × TransactionManager
  | tm, [] => (.ok (), tm)
  | tm, op :: rest =>
    match add_op tm op with
    | (.ok _, tm') => addOps tm' rest
    | (.error e, tm') => (.error e, tm')

/-- `TransactionManager::execute_batch`: `begin`, buffer every op,
`commit`. -/
def execute_batch (tm : TransactionManager) (ops : List TransactionOp) :
    Except OnyxError Unit × TransactionManager :=
  match begin tm with
  | (.error e, tm') => (.error e, tm')
  | (.ok _, tm') =>
    match addOps tm' ops with
    | (.error e, tm'') => (.error e, tm'')
    | (.ok _, tm'') => commit tm''

/-- The three stores of a manager, for stating that a failed commit
leaves them untouched. -/
def stores (tm : TransactionManager) :
    InMemoryVectorStore × InMemoryGraphStore × InMemoryHistoryStore :=
  (tm.vector_store, tm.graph_store, tm.history_store)

/-- Visibility of one transaction op against the stores of a manager
(`get_node`/`get_edge`/`get`/`get_version` afterwards see the op's
effect). -/
def opVisible (tm : TransactionManager) : TransactionOp → Prop
  | .insertNode node => tm.graph_store.get_node node.id = some node
  | .removeNode id => tm.graph_store.get_node id = none
  | .insertEdge edge => tm.graph_store.get_edge edge.id = some edge
  | .removeEdge id => tm.graph_store.get_edge id = none
  | .insertEmbedding id embedding => tm.vector_store.get id = some embedding
  | .deleteEmbedding id => tm.vector_store.get id = none
  | .recordVersion entry =>
    tm.history_store.get_version entry.version_id = some entry

end TransactionManager

/-! ## Concrete scenario data -/

/-- Spec scenario 2 (claim C1): node `U1` (id `1`). -/
def nodeU1 : Node := { id := 1, name := "f", content := "" }

/-- Spec scenario 2 (claim C1): a `Calls` edge from `U1 = 1` to the
missing node `U2 = 2`. -/
def edgeU1U2 : Edge :=
  { id := 10, edge_type := .calls, source_id := 1, target_id := 2 }

/-- The in-memory store holding only `U1` (the result of `add_node` on
a fresh store — checked in the C1 theorem). -/
def graphWithU1 : InMemoryGraphStore :=
  { nodes := [(1, nodeU1)], edges := [], outbound := [(1, [])], inbound := [(1, [])] }

/-- Spec scenario 6 (claim C2): nodes `A = 21`, `B = 22`; node
`C = 23` is never inserted. -/
def nodeA : Node := { id := 21, name := "A", content := "" }

/-- Node `B` of the C2 scenario. -/
def nodeB : Node := { id := 22, name := "B", content := "" }

/-- The `Calls` edge `A → C` of the C2 scenario (`C = 23` absent). -/
def edgeAC : Edge :=
  { id := 30, edge_type := .calls, source_id := 21, target_id := 23 }

/-- The C2 batch `[InsertNode(A), InsertNode(B), InsertEdge(Calls, A, C)]`. -/
def batchABC : List TransactionOp :=
  [.insertNode nodeA, .insertNode nodeB, .insertEdge edgeAC]

/-- A fresh manager with the C2 batch buffered inside an open
transaction. -/
def tmScenario : TransactionManager :=
  { TransactionManager.newManager with
      pending_ops := batchABC, in_transaction := true }

/-- Spec scenario 3 (claim C7): node `A = 1`. -/
def cnA : Node := { id := 1, name := "A", content := "" }

/-- C7 scenario node `B = 2`. -/
def cnB : Node := { id := 2, name := "B", content := "" }

/-- C7 scenario node `C = 3`. -/
def cnC : Node := { id := 3, name := "C", content := "" }

/-- C7 scenario edge `A → B (Calls)`. -/
def edgeAB : Edge :=
  { id := 10, edge_type := .calls, source_id := 1, target_id := 2 }

/-- C7 scenario edge `B → C (Calls)`. -/
def edgeBC : Edge :=
  { id := 11, edge_type := .calls, source_id := 2, target_id := 3 }

/-- The C7 store: nodes `A, B, C`, edges `A→B` and `B→C` (the result
of the `add_node`/`add_edge` chain — checked in the C7 theorem). -/
def graphABC : InMemoryGraphStore :=
  { nodes := [(1, cnA), (2, cnB), (3, cnC)],
    edges := [(10, edgeAB), (11, edgeBC)],
    outbound := [(1, [10]), (2, [11]), (3, [])],
    inbound := [(1, []), (2, [10]), (3, [11])] }

/-- The C7 store after `remove_node(B)`. -/
def graphABCAfter : InMemoryGraphStore :=
  { nodes := [(1, cnA), (3, cnC)],
    edges := [],
    outbound := [(1, []), (3, [])],
    inbound := [(1, []), (3, [])] }

/-- C4 counterexample data: an entry for entity `5` on branch `main`
with timestamp `2`. -/
def entryV1 : VersionEntry :=
  { version_id := "v1", entity_id := 5, parent_version := none,
    branch := "main", diff := .initial "a", commit_id := none,
    author := none, message := none, timestamp := 2 }

/-- C4 counterexample data: recorded after `v1` but with the *earlier*
timestamp `1`. -/
def entryV2 : VersionEntry :=
  { version_id := "v2", entity_id := 5, parent_version := some "v1",
    branch := "main", diff := .contentChanged "b" 1 1, commit_id := none,
    author := none, message := none, timestamp := 1 }

/-- The store after recording `v1` then `v2` (out of timestamp
order). -/
def histV12 : InMemoryHistoryStore :=
  { versions := [("v1", entryV1), ("v2", entryV2)],
    entity_versions := [(5, ["v1", "v2"])],
    branches := [],
    branch_heads := [((5, "main"), "v2")] }

/-- The store after recording only `v1` (an intermediate state of the
C4/C9 scenarios). -/
def histV1 : InMemoryHistoryStore :=
  { versions := [("v1", entryV1)],
    entity_versions := [(5, ["v1"])],
    branches := [],
    branch_heads := [((5, "main"), "v1")] }

/-- The store after recording the concrete two-element C3 chain
`Initial{"a"} (w1); ContentChanged{"b"} (w2)` for entity `11`. -/
def histChain : InMemoryHistoryStore :=
  { versions :=
      [("w1", InMemoryHistoryStore.chainEntry 11 none "w1" "a"),
       ("w2", InMemoryHistoryStore.chainEntry 11 (some "w1") "w2" "b")],
    entity_versions := [(11, ["w1", "w2"])],
    branches := [],
    branch_heads := [((11, "main"), "w2")] }

/-- C8 data: the root version for entity `7`. -/
def entryM1 : VersionEntry :=
  { version_id := "m1", entity_id := 7, parent_version := none,
    branch := "main", diff := .initial "x", commit_id := none,
    author := none, message := none, timestamp := 0 }

/-- C8 data: the synthetic merge entry `merge_branch("feature","dev")`
records (entity `Uuid::nil() = 0`, branch `dev`, parent = the head of
`feature`). -/
def entryMerge : VersionEntry :=
  { version_id := "mv1", entity_id := 0, parent_version := some "m1",
    branch := "dev",
    diff := .initial "Merge branch 'feature' into 'dev'",
    commit_id := none, author := none,
    message := some "Merge branch 'feature' into 'dev'", timestamp := 0 }

/-- The C8 store after `record m1; create_branch feature; create_branch
dev; merge_branch(feature, dev)` — `feature.merged_into = Some(dev)`. -/
def histMerged : InMemoryHistoryStore :=
  { versions := [("m1", entryM1), ("mv1", entryMerge)],
    entity_versions := [(7, ["m1"]), (0, ["mv1"])],
    branches :=
      [("feature",
        { name := "feature", head := "m1", base := "m1", created_at := 0,
          merged_into := some "dev" }),
       ("dev",
        { name := "dev", head := "mv1", base := "m1", created_at := 0,
          merged_into := none })],
    branch_heads := [((7, "main"), "m1"), ((0, "dev"), "mv1")] }

/-- C8 data: a new version recorded under the *merged* branch name
`feature`. -/
def entryF1 : VersionEntry :=
  { version_id := "f1", entity_id := 7, parent_version := some "m1",
    branch := "feature", diff := .contentChanged "y" 1 1,
    commit_id := none, author := none, message := none, timestamp := 1 }

/-- C9 data: an initial version for entity `9`. -/
def entrySelf1 : VersionEntry :=
  { version_id := "s1", entity_id := 9, parent_version := none,
    branch := "main", diff := .initial "x", commit_id := none,
    author := none, message := none, timestamp := 0 }

/-- C9 data: the same `version_id` recorded again, with itself as
parent — accepted, because the parent check sees the old entry and the
insert silently overwrites it. -/
def entrySelf2 : VersionEntry :=
  { version_id := "s1", entity_id := 9, parent_version := some "s1",
    branch := "main", diff := .contentChanged "y" 1 1, commit_id := none,
    author := none, message := none, timestamp := 1 }

/-- The C9 store after the overwrite: `s1` is its own parent. -/
def histLoop : InMemoryHistoryStore :=
  { versions := [("s1", entrySelf2)],
    entity_versions := [(9, ["s1", "s1"])],
    branches := [],
    branch_heads := [((9, "main"), "s1")] }

/-! # Theorems -/

/-! ## Association list lemmas -/

section AListLemmas

variable {κ α β : Type} [DecidableEq κ]

@[simp] theorem alookup_nil (k : κ) : alookup ([] : List (κ × α)) k = none := rfl

theorem alookup_cons (p : κ × α) (m : List (κ × α)) (k : κ) :
    alookup (p :: m) k = if p.1 = k then some p.2 else alookup m k := rfl

@[simp] theorem alookup_cons_self (k : κ) (v : α) (m : List (κ × α)) :
    alookup ((k, v) :: m) k = some v := by simp [alookup_cons]

theorem alookup_cons_ne {k k' : κ} (v : α) (m : List (κ × α)) (h : k' ≠ k) :
    alookup ((k', v) :: m) k = alookup m k := by simp [alookup_cons, h]

theorem alookup_append (m₁ m₂ : List (κ × α)) (k : κ) :
    alookup (m₁ ++ m₂) k =
      match alookup m₁ k with
      | some v => some v
      | none => alookup m₂ k := by
  induction m₁ with
  | nil => simp
  | cons p rest ih =>
    by_cases h : p.1 = k <;> simp [alookup_cons, h, ih]

theorem alookup_append_left {m₁ : List (κ × α)} {k : κ} {v : α}
    (h : alookup m₁ k = some v) (m₂ : List (κ × α)) :
    alookup (m₁ ++ m₂) k = some v := by
  rw [alookup_append, h]

theorem alookup_append_right {m₁ : List (κ × α)} {k : κ}
    (h : alookup m₁ k = none) (m₂ : List (κ × α)) :
    alookup (m₁ ++ m₂) k = alookup m₂ k := by
  rw [alookup_append, h]

@[simp] theorem alookup_aupsert_self (m : List (κ × α)) (k : κ) (v : α) :
    alookup (aupsert m k v) k = some v := by
  induction m with
  | nil => simp [aupsert]
  | cons p rest ih =>
    by_cases h : p.1 = k <;> simp [aupsert, h, alookup_cons, ih]

theorem alookup_aupsert_ne (m : List (κ × α)) {k k' : κ} (v : α) (h : k ≠ k') :
    alookup (aupsert m k v) k' = alookup m k' := by
  induction m with
  | nil => simp [aupsert, alookup_cons, h]
  | cons p rest ih =>
    by_cases hp : p.1 = k
    · subst hp; simp [aupsert, alookup_cons, h, ih]
    · simp only [aupsert, if_neg hp]
      by_cases hk : p.1 = k' <;> simp [alookup_cons, hk, ih]

theorem aerase_cons (p : κ × α) (m : List (κ × α)) (k : κ) :
    aerase (p :: m) k = if p.1 = k then aerase m k else p :: aerase m k := by
  by_cases h : p.1 = k <;> simp [aerase, List.filter_cons, h]

@[simp] theorem alookup_aerase_self (m : List (κ × α)) (k : κ) :
    alookup (aerase m k) k = none := by
  induction m with
  | nil => simp [aerase]
  | cons p rest ih =>
    rw [aerase_cons]
    by_cases h : p.1 = k
    · simpa [h] using ih
    · simpa [h, alookup_cons] using ih

theorem alookup_aerase_ne (m : List (κ × α)) {k k' : κ} (h : k ≠ k') :
    alookup (aerase m k) k' = alookup m k' := by
  induction m with
  | nil => simp [aerase]
  | cons p rest ih =>
    rw [aerase_cons]
    by_cases hp : p.1 = k
    · rw [if_pos hp, ih, alookup_cons, if_neg (by rw [hp]; exact h)]
    · rw [if_neg hp]
      by_cases hk : p.1 = k' <;> simp [alookup_cons, hk, ih]

theorem aadjust_cons (p : κ × α) (m : List (κ × α)) (k : κ) (f : α → α) :
    aadjust (p :: m) k f =
      (if p.1 = k then (k, f p.2) else p) :: aadjust m k f := rfl

theorem alookup_aadjust (m : List (κ × α)) (k k' : κ) (f : α → α) :
    alookup (aadjust m k f) k' =
      if k = k' then (alookup m k).map f else alookup m k' := by
  induction m with
  | nil => simp [aadjust]
  | cons p rest ih =>
    rw [aadjust_cons]
    by_cases hp : p.1 = k
    · rw [if_pos hp]
      by_cases hk : k = k'
      · subst hk; simp [alookup_cons, hp, ih]
      · rw [alookup_cons_ne _ _ hk, ih, if_neg hk, if_neg hk, alookup_cons,
          if_neg (fun hc => hk (hp.symm.trans hc))]
    · rw [if_neg hp]
      by_cases hk : k = k'
      · subst hk; simp [alookup_cons, hp, ih]
      · by_cases hpk : p.1 = k' <;> simp [alookup_cons, hp, hpk, ih, hk]

theorem alookup_isSome_of_mem {m : List (κ × α)} {p : κ × α} (h : p ∈ m) :
    (alookup m p.1).isSome := by
  induction m with
  | nil => cases h
  | cons q rest ih =>
    rcases List.mem_cons.mp h with h | h
    · subst h; simp [alookup_cons]
    · by_cases hq : q.1 = p.1 <;> simp [alookup_cons, hq, ih h]

theorem aupsert_of_fresh {m : List (κ × α)} {k : κ} (v : α)
    (h : alookup m k = none) : aupsert m k v = m ++ [(k, v)] := by
  induction m with
  | nil => rfl
  | cons p rest ih =>
    rw [alookup_cons] at h
    by_cases hp : p.1 = k
    · rw [if_pos hp] at h; cases h
    · rw [if_neg hp] at h
      simp only [aupsert, if_neg hp, List.cons_append, ih h]

theorem alookup_eq_none_of_not_mem_keys {m : List (κ × α)} {k : κ}
    (h : k ∉ m.map Prod.fst) : alookup m k = none := by
  induction m with
  | nil => rfl
  | cons p rest ih =>
    have h1 : p.1 ≠ k := fun hc => h (by simp [hc])
    have h2 : k ∉ rest.map Prod.fst := fun hc => h (by simp [hc])
    rw [alookup_cons, if_neg h1, ih h2]

theorem not_mem_keys_of_alookup_none {m : List (κ × α)} {k : κ}
    (h : alookup m k = none) : k ∉ m.map Prod.fst := by
  intro hc
  obtain ⟨p, hp, hfst⟩ := List.mem_map.mp hc
  have := alookup_isSome_of_mem hp
  rw [hfst, h] at this
  cases this

theorem alookup_get_of_nodup {m : List (κ × α)}
    (hnodup : (m.map Prod.fst).Nodup) :
    ∀ i (hi : i < m.length), alookup m (m.get ⟨i, hi⟩).1 = some (m.get ⟨i, hi⟩).2 := by
  induction m with
  | nil => intro i hi; cases hi
  | cons p rest ih =>
    intro i hi
    cases i with
    | zero =>
      show alookup (p :: rest) p.1 = some p.2
      rw [alookup_cons, if_pos rfl]
    | succ i =>
      have hi' : i < rest.length := Nat.lt_of_succ_lt_succ hi
      have hkey : (rest.get ⟨i, hi'⟩).1 ∈ rest.map Prod.fst :=
        List.mem_map.mpr ⟨_, rest.get_mem _ _, rfl⟩
      have hne : p.1 ≠ (rest.get ⟨i, hi'⟩).1 := by
        intro hc
        rw [List.map_cons, List.nodup_cons] at hnodup
        exact hnodup.1 (hc ▸ hkey)
      show alookup (p :: rest) (rest.get ⟨i, hi'⟩).1 = some (rest.get ⟨i, hi'⟩).2
      rw [alookup_cons, if_neg hne]
      exact ih (by rw [List.map_cons, List.nodup_cons] at hnodup; exact hnodup.2) i hi'

theorem mem_of_alookup {m : List (κ × α)} {k : κ} {v : α}
    (h : alookup m k = some v) : (k, v) ∈ m := by
  induction m with
  | nil => cases h
  | cons q rest ih =>
    rw [alookup_cons] at h
    by_cases hq : q.1 = k
    · rw [if_pos hq] at h
      have hv : q.2 = v := by injection h
      have hkv : (k, v) = q := by rw [← hq, ← hv]
      rw [hkv]
      exact List.mem_cons_self q rest
    · rw [if_neg hq] at h
      exact List.mem_cons_of_mem q (ih h)

end AListLemmas

/-- `find?` over an append: the first list wins. -/
theorem find?_append_eq {α : Type} (p : α → Bool) (l₁ l₂ : List α) :
    (l₁ ++ l₂).find? p =
      match l₁.find? p with
      | some x => some x
      | none => l₂.find? p := by
  induction l₁ with
  | nil => simp
  | cons a rest ih =>
    by_cases h : p a
    · rw [List.cons_append, List.find?_cons_of_pos _ h, List.find?_cons_of_pos _ h]
    · rw [List.cons_append, List.find?_cons_of_neg _ h, List.find?_cons_of_neg _ h, ih]

/-! ## Claim C4 — branch heads -/

namespace InMemoryHistoryStore

theorem lastFor_cons (en : VersionEntry) (es : List VersionEntry)
    (e : Uuid) (b : String) :
    lastFor (en :: es) e b =
      match lastFor es e b with
      | some x => some x
      | none =>
        if en.entity_id = e ∧ en.branch = b then some en else none := by
  unfold lastFor
  rw [List.reverse_cons, find?_append_eq]
  cases es.reverse.find? (fun en => en.entity_id = e ∧ en.branch = b) with
  | some x => rfl
  | none =>
    by_cases h : en.entity_id = e ∧ en.branch = b
    · rw [List.find?_cons_of_pos _ (by simpa using h), if_pos h]
    · rw [List.find?_cons_of_neg _ (by simpa using h), if_neg h]
      rfl

theorem record_version_ok_heads {s : InMemoryHistoryStore}
    {en : VersionEntry} {v : String} {s' : InMemoryHistoryStore}
    (h : s.record_version en = .ok (v, s')) :
    s'.branch_heads = aupsert s.branch_heads (en.entity_id, en.branch) en.version_id := by
  simp only [record_version] at h
  split at h
  · split at h
    · cases h; rfl
    · cases h
  · cases h; rfl

/-- C4 amended: after a sequence of successful `record_version` calls,
`get_head(e, b)` is the `version_id` of the most recently *recorded*
entry for `(e, b)` (falling back to the previous head when the
sequence has none) — not the latest-*timestamped* one. -/
theorem get_head_last_recorded (s s' : InMemoryHistoryStore)
    (es : List VersionEntry) (e : Uuid) (b : String)
    (hrec : recordAll s es = .ok s') :
    s'.get_head e b =
      match lastFor es e b with
      | some en => some en.version_id
      | none => s.get_head e b := by
  induction es generalizing s with
  | nil =>
    simp only [recordAll, Except.ok.injEq] at hrec
    subst hrec
    rfl
  | cons en rest ih =>
    simp only [recordAll] at hrec
    cases hr : s.record_version en with
    | error err => rw [hr] at hrec; cases hrec
    | ok pair =>
      obtain ⟨vid, s1⟩ := pair
      rw [hr] at hrec
      have hstep := ih s1 hrec
      rw [lastFor_cons]
      cases hlast : lastFor rest e b with
      | some x => rw [hlast] at hstep; exact hstep
      | none =>
        rw [hlast] at hstep
        rw [hstep]
        have hheads := record_version_ok_heads hr
        by_cases hmatch : en.entity_id = e ∧ en.branch = b
        · rw [if_pos hmatch]
          obtain ⟨h1, h2⟩ := hmatch
          unfold get_head
          rw [hheads, h1, h2, alookup_aupsert_self]
        · rw [if_neg hmatch]
          unfold get_head
          rw [hheads, alookup_aupsert_ne]
          intro hc
          apply hmatch
          exact ⟨congrArg Prod.fst hc, congrArg Prod.snd hc⟩

end InMemoryHistoryStore

/-- C4 counterexample: with `v1` (timestamp 2) recorded before `v2`
(timestamp 1) on the same `(entity, branch)`, `get_head` returns `v2`
— the most recently recorded id — while the latest-timestamped entry
for `(5, main)` is `v1`; the claimed equality fails. -/
theorem get_head_timestamp_counterexample :
    InMemoryHistoryStore.recordAll InMemoryHistoryStore.newStore
      [entryV1, entryV2] = .ok histV12 ∧
    histV12.get_head 5 "main" = some "v2" ∧
    InMemoryHistoryStore.specBranchHead histV12 5 "main" = some "v1" ∧
    histV12.get_head 5 "main" ≠
      InMemoryHistoryStore.specBranchHead histV12 5 "main" := by
  have h1 : histV12.get_head 5 "main" = some "v2" := rfl
  have h2 : InMemoryHistoryStore.specBranchHead histV12 5 "main" = some "v1" := by
    unfold InMemoryHistoryStore.specBranchHead
    rfl
  refine ⟨rfl, h1, h2, ?_⟩
  rw [h1, h2]
  simp

/-- C4 witness: the amended head law applied to the concrete
out-of-order recording — the head is `v2`, the last recorded id. -/
theorem get_head_last_recorded_witness :
    histV12.get_head 5 "main" = some "v2" ∧
    InMemoryHistoryStore.lastFor [entryV1, entryV2] 5 "main" = some entryV2 := by
  have h := InMemoryHistoryStore.get_head_last_recorded
    InMemoryHistoryStore.newStore histV12 [entryV1, entryV2] 5 "main" rfl
  exact ⟨h.trans (by rfl), rfl⟩

/-! ## Claims C3 and C9 — version chains -/

namespace InMemoryHistoryStore

theorem record_version_ok_versions {s : InMemoryHistoryStore}
    {en : VersionEntry} {v : String} {s' : InMemoryHistoryStore}
    (h : s.record_version en = .ok (v, s')) :
    s'.versions = aupsert s.versions en.version_id en := by
  simp only [record_version] at h
  split at h
  · split at h
    · cases h; rfl
    · cases h
  · cases h; rfl

theorem record_version_ok_parent {s : InMemoryHistoryStore}
    {en : VersionEntry} {v : String} {s' : InMemoryHistoryStore}
    (h : s.record_version en = .ok (v, s')) :
    ∀ p, en.parent_version = some p → acontains s.versions p = true := by
  intro p hp
  simp only [record_version, hp] at h
  by_cases hc : acontains s.versions p
  · exact hc
  · rw [if_neg hc] at h; cases h

@[simp] theorem chainEntry_version_id (e : Uuid) (parent : Option String)
    (vid c : String) : (chainEntry e parent vid c).version_id = vid := rfl

@[simp] theorem chainEntry_entity_id (e : Uuid) (parent : Option String)
    (vid c : String) : (chainEntry e parent vid c).entity_id = e := rfl

@[simp] theorem chainEntry_parent (e : Uuid) (parent : Option String)
    (vid c : String) : (chainEntry e parent vid c).parent_version = parent := rfl

theorem applyDiff_chainEntry (e : Uuid) (parent : Option String)
    (vid c content : String) :
    applyDiff content (chainEntry e parent vid c).diff = c := by
  cases parent <;> rfl

theorem chainEntries_ids (e : Uuid) (parent : Option String)
    (ps : List (String × String)) :
    (chainEntries e parent ps).map VersionEntry.version_id = ps.map Prod.fst := by
  induction ps generalizing parent with
  | nil => rfl
  | cons p rest ih =>
    obtain ⟨vid, c⟩ := p
    simp only [chainEntries, List.map_cons, chainEntry_version_id, ih]

theorem lastParent_append_singleton (parent : Option String)
    (l : List (String × String)) (vid c : String) :
    lastParent parent (l ++ [(vid, c)]) = some vid := by
  induction l generalizing parent with
  | nil => rfl
  | cons q rest ih =>
    obtain ⟨v', c'⟩ := q
    simpa only [List.cons_append, lastParent] using ih (some v')

theorem chainEntries_append (e : Uuid) (parent : Option String)
    (l₁ l₂ : List (String × String)) :
    chainEntries e parent (l₁ ++ l₂) =
      chainEntries e parent l₁ ++ chainEntries e (lastParent parent l₁) l₂ := by
  induction l₁ generalizing parent with
  | nil => rfl
  | cons p rest ih =>
    obtain ⟨vid, c⟩ := p
    simp only [List.cons_append, chainEntries, lastParent, List.append_eq,
      ih (some vid)]

theorem recordChain_append (e : Uuid) (s0 : InMemoryHistoryStore)
    (parent : Option String) (l₁ l₂ : List (String × String)) :
    recordChain e s0 parent (l₁ ++ l₂) =
      match recordChain e s0 parent l₁ with
      | .ok s1 => recordChain e s1 (lastParent parent l₁) l₂
      | .error err => .error err := by
  induction l₁ generalizing s0 parent with
  | nil => rfl
  | cons p rest ih =>
    obtain ⟨vid, c⟩ := p
    simp only [List.cons_append, recordChain, lastParent]
    cases s0.record_version (chainEntry e parent vid c) with
    | error err => rfl
    | ok pair => exact ih pair.2 (some vid)

theorem recordChain_versions (e : Uuid) (parent : Option String)
    (ps : List (String × String)) (s0 s' : InMemoryHistoryStore)
    (hfresh : ∀ vid ∈ ps.map Prod.fst, alookup s0.versions vid = none)
    (hnodup : (ps.map Prod.fst).Nodup)
    (hrec : recordChain e s0 parent ps = .ok s') :
    s'.versions =
      s0.versions ++ (chainEntries e parent ps).map (fun en => (en.version_id, en)) := by
  induction ps generalizing s0 parent with
  | nil =>
    simp only [recordChain, Except.ok.injEq] at hrec
    subst hrec
    simp [chainEntries]
  | cons p rest ih =>
    obtain ⟨vid, c⟩ := p
    simp only [recordChain] at hrec
    cases hr : s0.record_version (chainEntry e parent vid c) with
    | error err => rw [hr] at hrec; cases hrec
    | ok pair =>
      obtain ⟨v2, s1⟩ := pair
      rw [hr] at hrec
      have hv1 : s1.versions = s0.versions ++ [(vid, chainEntry e parent vid c)] := by
        rw [record_version_ok_versions hr, chainEntry_version_id,
          aupsert_of_fresh _ (hfresh vid (by simp))]
      have hfresh' : ∀ v' ∈ rest.map Prod.fst, alookup s1.versions v' = none := by
        intro v' hv'
        rw [hv1, alookup_append]
        rw [hfresh v' (by simp [hv'])]
        have hne : vid ≠ v' := by
          intro hc
          rw [List.map_cons, List.nodup_cons] at hnodup
          exact hnodup.1 (hc ▸ hv')
        simp [alookup_cons, hne]
      have hnodup' : (rest.map Prod.fst).Nodup := by
        rw [List.map_cons, List.nodup_cons] at hnodup
        exact hnodup.2
      rw [ih (some vid) s1 hfresh' hnodup' hrec, hv1]
      simp [chainEntries]

@[simp] theorem collectChain_none_cur (m : List (String × VersionEntry))
    (e : Uuid) (fuel : Nat) : collectChain m e none fuel = some (.ok []) := by
  cases fuel <;> rfl

theorem collectChain_zero (m : List (String × VersionEntry)) (e : Uuid)
    (vid : String) : collectChain m e (some vid) 0 = none := rfl

theorem collectChain_lookup_none {m : List (String × VersionEntry)} {e : Uuid}
    {vid : String} (fuel : Nat) (hl : alookup m vid = none) :
    collectChain m e (some vid) (fuel + 1) =
      some (.error (.versionNotFound vid)) := by
  simp only [collectChain, hl]

theorem collectChain_some {m : List (String × VersionEntry)} {e : Uuid}
    {vid : String} {entry : VersionEntry} (fuel : Nat)
    (hl : alookup m vid = some entry) (he : entry.entity_id = e) :
    collectChain m e (some vid) (fuel + 1) =
      (collectChain m e entry.parent_version fuel).map
        (fun r => r.map (fun rest => entry :: rest)) := by
  simp only [collectChain, hl]
  rw [if_neg (by simp [he])]

theorem collectChain_some_ne {m : List (String × VersionEntry)} {e : Uuid}
    {vid : String} {entry : VersionEntry} (fuel : Nat)
    (hl : alookup m vid = some entry) (hne : entry.entity_id ≠ e) :
    collectChain m e (some vid) (fuel + 1) =
      some (.error (.internal ("Version " ++ vid ++ " belongs to entity " ++
        toString entry.entity_id ++ ", not " ++ toString e))) := by
  simp only [collectChain, hl]
  rw [if_pos (by simp [hne])]

theorem collectChain_extend {m m' : List (String × VersionEntry)} {e : Uuid}
    (hext : ∀ k v, alookup m k = some v → alookup m' k = some v) :
    ∀ (fuel : Nat) (cur : Option String) (chain : List VersionEntry),
      collectChain m e cur fuel = some (.ok chain) →
      collectChain m' e cur fuel = some (.ok chain) := by
  intro fuel
  induction fuel with
  | zero =>
    intro cur chain h
    cases cur with
    | none => simpa using h
    | some vid => rw [collectChain_zero] at h; cases h
  | succ fuel ih =>
    intro cur chain h
    cases cur with
    | none => simpa using h
    | some vid =>
      cases hl : alookup m vid with
      | none => rw [collectChain_lookup_none fuel hl] at h; simp at h
      | some entry =>
        by_cases he : entry.entity_id = e
        · rw [collectChain_some fuel hl he] at h
          cases hin : collectChain m e entry.parent_version fuel with
          | none => rw [hin] at h; cases h
          | some r =>
            rw [hin] at h
            cases r with
            | error err => simp [Except.map] at h
            | ok rest =>
              simp only [Option.map_some', Except.map, Option.some.injEq,
                Except.ok.injEq] at h
              rw [collectChain_some fuel (hext _ _ hl) he,
                ih entry.parent_version rest hin]
              simp [Except.map, h]
        · rw [collectChain_some_ne fuel hl he] at h
          simp at h

theorem collectChain_mono_succ {m : List (String × VersionEntry)} {e : Uuid} :
    ∀ (fuel : Nat) (cur : Option String)
      (r : Except OnyxError (List VersionEntry)),
      collectChain m e cur fuel = some r →
      collectChain m e cur (fuel + 1) = some r := by
  intro fuel
  induction fuel with
  | zero =>
    intro cur r h
    cases cur with
    | none => simpa using h
    | some vid => rw [collectChain_zero] at h; cases h
  | succ fuel ih =>
    intro cur r h
    cases cur with
    | none => simpa using h
    | some vid =>
      cases hl : alookup m vid with
      | none =>
        rw [collectChain_lookup_none fuel hl] at h
        rw [collectChain_lookup_none (fuel + 1) hl]
        exact h
      | some entry =>
        by_cases he : entry.entity_id = e
        · rw [collectChain_some fuel hl he] at h
          rw [collectChain_some (fuel + 1) hl he]
          cases hin : collectChain m e entry.parent_version fuel with
          | none => rw [hin] at h; cases h
          | some r' =>
            rw [hin] at h
            rw [ih entry.parent_version r' hin]
            exact h
        · rw [collectChain_some_ne fuel hl he] at h
          rw [collectChain_some_ne (fuel + 1) hl he]
          exact h

theorem collectChain_mono {m : List (String × VersionEntry)} {e : Uuid}
    {cur : Option String} {r : Except OnyxError (List VersionEntry)}
    {fuel fuel' : Nat} (hle : fuel ≤ fuel')
    (h : collectChain m e cur fuel = some r) :
    collectChain m e cur fuel' = some r := by
  induction hle with
  | refl => exact h
  | step _ ih => exact collectChain_mono_succ _ _ _ ih

theorem foldContent (e : Uuid) (ps : List (String × String)) :
    ∀ (parent : Option String) (c0 : String),
      (chainEntries e parent ps).foldl
          (fun content entry => applyDiff content entry.diff) c0 =
        match ps.getLast? with
        | some p => p.2
        | none => c0 := by
  induction ps with
  | nil => intro parent c0; rfl
  | cons p rest ih =>
    obtain ⟨vid, c⟩ := p
    intro parent c0
    simp only [chainEntries, List.foldl_cons, applyDiff_chainEntry]
    rw [ih (some vid) c]
    cases rest with
    | nil => rfl
    | cons q rest' =>
      rw [List.getLast?_cons_cons]
      cases hlast : (q :: rest').getLast? with
      | none => rw [List.getLast?_eq_none_iff] at hlast; cases hlast
      | some p => rfl

theorem recordChain_walk (e : Uuid) (ps : List (String × String)) :
    ∀ s' : InMemoryHistoryStore, (ps.map Prod.fst).Nodup →
      recordChain e InMemoryHistoryStore.newStore none ps = .ok s' →
      collectChain s'.versions e (lastParent none ps) (ps.length + 1) =
        some (.ok (chainEntries e none ps).reverse) := by
  induction ps using List.reverseRecOn with
  | nil =>
    intro s' _ hrec
    simp only [recordChain, Except.ok.injEq] at hrec
    subst hrec
    simp [lastParent, chainEntries]
  | append_singleton qs p ih =>
    obtain ⟨vid, c⟩ := p
    intro s' hnodup hrec
    rw [List.map_append, List.nodup_append] at hnodup
    obtain ⟨hnq, _, hdisj⟩ := hnodup
    have hvid_not : vid ∉ qs.map Prod.fst := fun hc => hdisj hc (by simp)
    rw [recordChain_append] at hrec
    cases hpre : recordChain e InMemoryHistoryStore.newStore none qs with
    | error err => rw [hpre] at hrec; cases hrec
    | ok s1 =>
      rw [hpre] at hrec
      simp only [recordChain] at hrec
      cases hr : s1.record_version (chainEntry e (lastParent none qs) vid c) with
      | error err => rw [hr] at hrec; cases hrec
      | ok pair =>
        obtain ⟨v2, s2⟩ := pair
        rw [hr] at hrec
        simp only [recordChain, Except.ok.injEq] at hrec
        subst hrec
        have hv1 : s1.versions =
            (chainEntries e none qs).map (fun en => (en.version_id, en)) := by
          have h := recordChain_versions e none qs InMemoryHistoryStore.newStore s1
            (by intro v hv; rfl) hnq hpre
          simpa [InMemoryHistoryStore.newStore] using h
        have hfresh1 : alookup s1.versions vid = none := by
          apply alookup_eq_none_of_not_mem_keys
          have hkeys : s1.versions.map Prod.fst = qs.map Prod.fst := by
            rw [hv1, List.map_map]
            exact chainEntries_ids e none qs
          rw [hkeys]
          exact hvid_not
        have hv2 : s2.versions =
            s1.versions ++ [(vid, chainEntry e (lastParent none qs) vid c)] := by
          rw [record_version_ok_versions hr, chainEntry_version_id,
            aupsert_of_fresh _ hfresh1]
        rw [lastParent_append_singleton]
        have hlen : (qs ++ [(vid, c)]).length + 1 = (qs.length + 1) + 1 := by simp
        rw [hlen]
        have hlookv : alookup s2.versions vid =
            some (chainEntry e (lastParent none qs) vid c) := by
          rw [hv2, alookup_append, hfresh1]
          simp [alookup_cons]
        rw [collectChain_some (qs.length + 1) hlookv
          (show (chainEntry e (lastParent none qs) vid c).entity_id = e from rfl),
          chainEntry_parent]
        have hext : ∀ k v, alookup s1.versions k = some v →
            alookup s2.versions k = some v := by
          intro k v h
          rw [hv2]
          exact alookup_append_left h _
        have hwalk := collectChain_extend hext (qs.length + 1) _ _ (ih s1 hnq hpre)
        rw [hwalk]
        simp [Except.map, chainEntries_append, chainEntries,
          List.reverse_append]

end InMemoryHistoryStore

namespace InMemoryHistoryStore

theorem reachable_invariant :
    ∀ s : InMemoryHistoryStore, ReachableFresh s →
      VersOrdered s.versions ∧ (s.versions.map Prod.fst).Nodup := by
  intro s h
  induction h with
  | empty =>
    constructor
    · intro i hi p hp
      simp [InMemoryHistoryStore.newStore] at hi
    · simp [InMemoryHistoryStore.newStore]
  | @step s entry s' hs hfresh hrec ih =>
    obtain ⟨hord, hnodup⟩ := ih
    have hv : s'.versions = s.versions ++ [(entry.version_id, entry)] := by
      rw [record_version_ok_versions hrec, aupsert_of_fresh _ hfresh]
    constructor
    · have hord' : VersOrdered (s.versions ++ [(entry.version_id, entry)]) := by
        intro i hi p hp
        rw [List.length_append, List.length_cons, List.length_nil] at hi
        by_cases hlt : i < s.versions.length
        · have hget : (s.versions ++ [(entry.version_id, entry)]).get
              ⟨i, by rw [List.length_append]; omega⟩ = s.versions.get ⟨i, hlt⟩ :=
            List.get_append i hlt
          rw [hget] at hp
          obtain ⟨j, hj, hji, hkey⟩ := hord i hlt p hp
          refine ⟨j, by rw [List.length_append]; omega, hji, ?_⟩
          have hgetj : (s.versions ++ [(entry.version_id, entry)]).get
              ⟨j, by rw [List.length_append]; omega⟩ = s.versions.get ⟨j, hj⟩ :=
            List.get_append j hj
          rw [hgetj, hkey]
        · have hieq : i = s.versions.length := by omega
          subst hieq
          have hget : (s.versions ++ [(entry.version_id, entry)]).get
              ⟨s.versions.length, by simp⟩ =
              (entry.version_id, entry) := by
            rw [List.get_eq_getElem]
            exact List.getElem_concat_length _ _ _ rfl _
          rw [hget] at hp
          have hpar := record_version_ok_parent hrec p hp
          have hsome : (alookup s.versions p).isSome := hpar
          obtain ⟨v, hlook⟩ := Option.isSome_iff_exists.mp hsome
          obtain ⟨⟨j, hj⟩, hgetj⟩ := List.mem_iff_get.mp (mem_of_alookup hlook)
          refine ⟨j, by rw [List.length_append]; omega, hj, ?_⟩
          have hgetj' : (s.versions ++ [(entry.version_id, entry)]).get
              ⟨j, by rw [List.length_append]; omega⟩ = s.versions.get ⟨j, hj⟩ :=
            List.get_append j hj
          rw [hgetj', hgetj]
      rw [hv]
      exact hord'
    · rw [hv, List.map_append, List.nodup_append]
      refine ⟨hnodup, by simp, ?_⟩
      intro k hk hk2
      simp only [List.map_cons, List.map_nil, List.mem_singleton] at hk2
      subst hk2
      exact not_mem_keys_of_alookup_none hfresh hk

theorem collectChain_terminates {l : List (String × VersionEntry)} (e : Uuid)
    (hord : VersOrdered l) (hnodup : (l.map Prod.fst).Nodup) :
    ∀ i (hi : i < l.length),
      collectChain l e (some ((l.get ⟨i, hi⟩).1)) (i + 1) ≠ none := by
  intro i
  induction i using Nat.strong_induction_on with
  | _ i ih =>
    intro hi
    have hl := alookup_get_of_nodup hnodup i hi
    by_cases he : (l.get ⟨i, hi⟩).2.entity_id = e
    · rw [collectChain_some i hl he]
      cases hp : (l.get ⟨i, hi⟩).2.parent_version with
      | none => simp
      | some p =>
        obtain ⟨j, hj, hji, hkey⟩ := hord i hi p hp
        have hterm := ih j hji hj
        rw [hkey] at hterm
        obtain ⟨r, hr⟩ := Option.ne_none_iff_exists'.mp hterm
        have hr' := collectChain_mono (show j + 1 ≤ i from hji) hr
        rw [hr']
        simp
    · rw [collectChain_some_ne i hl he]
      simp

theorem histLoop_collect_none :
    ∀ fuel, collectChain histLoop.versions 9 (some "s1") fuel = none := by
  intro fuel
  induction fuel with
  | zero => rfl
  | succ fuel ih =>
    rw [collectChain_some fuel
      (show alookup histLoop.versions "s1" = some entrySelf2 from rfl)
      (show entrySelf2.entity_id = 9 from rfl)]
    rw [show entrySelf2.parent_version = some "s1" from rfl, ih]
    rfl

end InMemoryHistoryStore

open InMemoryHistoryStore in
/-- C9: starting from the empty store, any sequence of successful
`record_version` calls with fresh (pairwise-distinct) version ids
yields acyclic parent chains — the parent walk inside
`get_content_at_version` terminates for every stored version (some
finite fuel yields a result).  Re-recording an existing `version_id`
silently overwrites the entry, and a self-parental overwrite makes the
walk diverge: no amount of fuel produces a result. -/
theorem chain_walk_termination :
    (∀ s : InMemoryHistoryStore, ReachableFresh s →
      ∀ vid ∈ s.versions.map Prod.fst, ∀ e : Uuid,
        ∃ fuel r, s.get_content_at_version e vid fuel = some r) ∧
    recordAll InMemoryHistoryStore.newStore [entrySelf1, entrySelf2] =
      .ok histLoop ∧
    (∀ fuel, histLoop.get_content_at_version 9 "s1" fuel = none) := by
  refine ⟨?_, rfl, ?_⟩
  · intro s hreach vid hvid e
    obtain ⟨hord, hnodup⟩ := reachable_invariant s hreach
    obtain ⟨p, hp, hfst⟩ := List.mem_map.mp hvid
    obtain ⟨⟨i, hi⟩, hget⟩ := List.mem_iff_get.mp hp
    have hterm := collectChain_terminates e hord hnodup i hi
    rw [hget, hfst] at hterm
    obtain ⟨r, hr⟩ := Option.ne_none_iff_exists'.mp hterm
    refine ⟨i + 1, r.map (fun chain =>
      chain.reverse.foldl (fun content entry =>
        InMemoryHistoryStore.applyDiff content entry.diff) ""), ?_⟩
    unfold InMemoryHistoryStore.get_content_at_version
    rw [hr]
    rfl
  · intro fuel
    unfold InMemoryHistoryStore.get_content_at_version
    rw [histLoop_collect_none fuel]
    rfl

/-- C9 witness: the two-record store `v1 ← v2` is reachable with fresh
ids, so reconstruction at `v2` terminates with some fuel. -/
theorem chain_walk_termination_witness :
    ∃ fuel r, histV12.get_content_at_version 5 "v2" fuel = some r := by
  have h1 : ReachableFresh histV1 :=
    @ReachableFresh.step InMemoryHistoryStore.newStore entryV1 histV1
      ReachableFresh.empty rfl rfl
  have hreach : ReachableFresh histV12 :=
    @ReachableFresh.step histV1 entryV2 histV12 h1 rfl rfl
  exact chain_walk_termination.1 histV12 hreach "v2" (by decide) 5

open InMemoryHistoryStore in
/-- C3: round-trip.  Record a chain `Initial{c₀}; ContentChanged{c₁};
…; ContentChanged{cₙ}` (pairwise-distinct fresh ids, each entry's
parent the previous id) from the empty store; then for every `i`,
`get_content_at_version(e, vᵢ)` reconstructs exactly `cᵢ` (the walk
terminates within the chain length, `ContentChanged` acting as the
post-image). -/
theorem record_chain_roundtrip (e : Uuid) (ps : List (String × String))
    (s' : InMemoryHistoryStore)
    (hnodup : (ps.map Prod.fst).Nodup)
    (hrec : recordChain e InMemoryHistoryStore.newStore none ps = .ok s') :
    ∀ i (hi : i < ps.length),
      s'.get_content_at_version e (ps.get ⟨i, hi⟩).1 (ps.length + 1) =
        some (.ok (ps.get ⟨i, hi⟩).2) := by
  intro i hi
  have hrec0 := hrec
  have hsplit : ps.take (i + 1) ++ ps.drop (i + 1) = ps := List.take_append_drop _ _
  have hconcat : ps.take i ++ [ps.get ⟨i, hi⟩] = ps.take (i + 1) := by
    rw [List.get_eq_getElem, ← List.concat_eq_append, List.take_concat_get]
  have hnq : ((ps.take (i + 1)).map Prod.fst).Nodup := by
    rw [List.map_take]
    exact List.Nodup.sublist (List.take_sublist _ _) hnodup
  rw [← hsplit, recordChain_append] at hrec
  cases hpre : recordChain e InMemoryHistoryStore.newStore none (ps.take (i + 1)) with
  | error err => rw [hpre] at hrec; cases hrec
  | ok s1 =>
    have hwalk := recordChain_walk e (ps.take (i + 1)) s1 hnq hpre
    have hlast : lastParent none (ps.take (i + 1)) =
        some (ps.get ⟨i, hi⟩).1 := by
      rw [← hconcat]
      exact lastParent_append_singleton none _ _ _
    rw [hlast] at hwalk
    have hvers' := recordChain_versions e none ps InMemoryHistoryStore.newStore s'
      (by intro v hv; rfl) hnodup hrec0
    have hvers1 := recordChain_versions e none (ps.take (i + 1))
      InMemoryHistoryStore.newStore s1 (by intro v hv; rfl) hnq hpre
    have hext : ∀ k v, alookup s1.versions k = some v →
        alookup s'.versions k = some v := by
      intro k v h
      have hsplit2 : chainEntries e none ps =
          chainEntries e none (ps.take (i + 1)) ++
            chainEntries e (lastParent none (ps.take (i + 1))) (ps.drop (i + 1)) := by
        conv_lhs => rw [← hsplit]
        rw [chainEntries_append]
      rw [hvers', hsplit2, List.map_append]
      rw [hvers1] at h
      simp only [InMemoryHistoryStore.newStore, List.nil_append] at h ⊢
      exact alookup_append_left h _
    have hwalk' := collectChain_extend hext _ _ _ hwalk
    have hfuel : (ps.take (i + 1)).length + 1 ≤ ps.length + 1 := by
      have h1 : (ps.take (i + 1)).length ≤ ps.length := by
        rw [List.length_take]
        exact Nat.min_le_right _ _
      omega
    have hwalk'' := collectChain_mono hfuel hwalk'
    unfold InMemoryHistoryStore.get_content_at_version
    rw [hwalk'']
    simp only [Option.map_some', Except.map, List.reverse_reverse]
    rw [foldContent, ← hconcat, List.getLast?_concat]

/-- C3 witness: the concrete chain `Initial{"a"} (w1);
ContentChanged{"b"} (w2)` for entity `11` reconstructs `"a"` at `w1`
and `"b"` at `w2`. -/
theorem record_chain_roundtrip_witness :
    histChain.get_content_at_version 11 "w1" 3 = some (.ok "a") ∧
    histChain.get_content_at_version 11 "w2" 3 = some (.ok "b") := by
  have h := record_chain_roundtrip 11 [("w1", "a"), ("w2", "b")] histChain
    (by decide) rfl
  exact ⟨h 0 (by decide), h 1 (by decide)⟩

/-! ## Claim C8 — merged branches and record_version -/

/-- C8 amended: `record_version` never consults branch metadata — its
success is invariant under any change to the `branches` map (in
particular marking a branch merged), and it succeeds exactly when the
parent check passes. -/
theorem record_version_ignores_branch_state :
    (∀ (s : InMemoryHistoryStore) (branches' : List (String × Branch))
        (entry : VersionEntry),
      exceptIsOk (InMemoryHistoryStore.record_version
          { s with branches := branches' } entry) =
        exceptIsOk (s.record_version entry)) ∧
    (∀ (s : InMemoryHistoryStore) (entry : VersionEntry),
      exceptIsOk (s.record_version entry) = true ↔
        (entry.parent_version = none ∨
          ∃ p, entry.parent_version = some p ∧
            acontains s.versions p = true)) := by
  constructor
  · intro s branches' entry
    simp only [InMemoryHistoryStore.record_version]
    cases entry.parent_version with
    | none => rfl
    | some parent =>
      by_cases hc : acontains s.versions parent <;> simp [hc, exceptIsOk]
  · intro s entry
    simp only [InMemoryHistoryStore.record_version]
    cases hp : entry.parent_version with
    | none => simp [exceptIsOk]
    | some parent =>
      by_cases hc : acontains s.versions parent <;> simp [hc, exceptIsOk]

/-- C8 counterexample: after `merge_branch("feature", "dev")` the
`feature` branch carries `merged_into = Some("dev")`, yet
`record_version` of an entry with `branch = "feature"` still succeeds
and stores the new version — merged branches are not read-only. -/
theorem record_after_merge_counterexample :
    ((InMemoryHistoryStore.newStore.record_version entryM1).bind (fun p =>
      (p.2.create_branch "feature" "m1").bind (fun s2 =>
      (s2.create_branch "dev" "m1").bind (fun s3 =>
      (s3.merge_branch "feature" "dev" "mv1" 0).map Prod.snd)))) = .ok histMerged ∧
    histMerged.get_branch "feature" =
      some { name := "feature", head := "m1", base := "m1",
             created_at := 0, merged_into := some "dev" } ∧
    histMerged.record_version entryF1 =
      .ok ("f1", { histMerged with
        versions := histMerged.versions ++ [("f1", entryF1)],
        entity_versions := [(7, ["m1", "f1"]), (0, ["mv1"])],
        branch_heads := histMerged.branch_heads ++ [((7, "feature"), "f1")] }) :=
  ⟨rfl, rfl, rfl⟩

/-! ## Claim C6 — dimension guard on insert -/

/-- C6: for a vector store with declared dimensionality `D`, every
`insert(id, v)` with `len(v) ≠ D` fails with
`DimensionMismatch{expected: D, got: len(v)}` and stores nothing (the
error is returned before any mutation). -/
theorem insert_dimension_guard (s : InMemoryVectorStore) (D : Nat) (id : Uuid)
    (v : List ℝ) (hD : s.dimensions = some D) (hlen : v.length ≠ D) :
    s.insert id v = .error (.dimensionMismatch D v.length) := by
  simp [InMemoryVectorStore.insert, hD, Ne.symm hlen]

/-- C6 witness: a store opened with `D = 3` rejects `[1.0, 2.0]` with
`DimensionMismatch{expected: 3, got: 2}`. -/
theorem insert_dimension_guard_witness :
    (InMemoryVectorStore.with_dimensions 3).insert 7 [1, 2] =
      .error (.dimensionMismatch 3 2) :=
  insert_dimension_guard (InMemoryVectorStore.with_dimensions 3) 3 7 [1, 2]
    rfl (by decide)

/-! ## Claim C10 — insert dimension check iff a dimension is declared -/

/-- C10: `insert` fails with `DimensionMismatch` exactly when the store
was constructed with a declared dimension that differs from the
vector's length; a store built by `new()` accepts vectors of any
length, so one store may hold embeddings of differing dimensionality
(here lengths 2 and 3). -/
theorem insert_mismatch_iff :
    (∀ (s : InMemoryVectorStore) (id : Uuid) (v : List ℝ) (d : Nat),
        s.insert id v = .error (.dimensionMismatch d v.length) ↔
          s.dimensions = some d ∧ v.length ≠ d) ∧
    (∀ (s : InMemoryVectorStore) (id : Uuid) (v : List ℝ),
        s.dimensions = none →
          s.insert id v = .ok { s with embeddings := aupsert s.embeddings id v }) ∧
    (InMemoryVectorStore.new.insert 1 [1, 2]).bind (fun s => s.insert 2 [1, 2, 3]) =
      .ok { embeddings := [(1, [1, 2]), (2, [1, 2, 3])], dimensions := none } := by
  refine ⟨fun s id v d => ?_, fun s id v h => ?_, rfl⟩
  · constructor
    · intro h
      cases hdim : s.dimensions with
      | none => simp [InMemoryVectorStore.insert, hdim] at h
      | some d' =>
        by_cases hne : d' ≠ v.length
        · simp only [InMemoryVectorStore.insert, hdim, if_pos hne] at h
          simp only [Except.error.injEq, OnyxError.dimensionMismatch.injEq] at h
          obtain ⟨hd, -⟩ := h
          subst hd
          exact ⟨rfl, fun hc => hne hc.symm⟩
        · simp [InMemoryVectorStore.insert, hdim, hne] at h
    · rintro ⟨hdim, hne⟩
      simp [InMemoryVectorStore.insert, hdim, Ne.symm hne]
  · simp [InMemoryVectorStore.insert, h]

/-- C10 witness: a `new()` store (no declared dimension) accepts a
length-4 vector. -/
theorem insert_mismatch_iff_witness :
    InMemoryVectorStore.new.insert 5 [1, 2, 3, 4] =
      .ok { embeddings := [(5, [1, 2, 3, 4])], dimensions := none } :=
  insert_mismatch_iff.2.1 InMemoryVectorStore.new 5 [1, 2, 3, 4] rfl

/-! ## Claim C2 — commit atomicity -/

namespace TransactionManager

/-- Every op fails inside `apply_op`: each arm's first call is a
`*_blocking` stub that returns the fixed internal error. -/
theorem apply_op_error (tm : TransactionManager) (op : TransactionOp) :
    apply_op tm op = .error blockingError := by
  cases op <;> rfl

/-- `rollback_applied` never changes the manager: every undo arm
discards the result of a blocking stub. -/
theorem rollback_applied_eq (tm : TransactionManager)
    (applied : List AppliedOp) : rollback_applied tm applied = tm := by
  unfold rollback_applied
  induction applied.reverse with
  | nil => rfl
  | cons op rest ih => cases op <;> simpa using ih

/-- Unfolding `commitLoop` on a non-empty op list: the first op fails,
nothing was applied, and the loop reports `TransactionFailed`. -/
theorem commitLoop_cons (tm : TransactionManager) (op : TransactionOp)
    (rest : List TransactionOp) (applied : List AppliedOp) :
    commitLoop tm (op :: rest) applied =
      (.error (.transactionFailed
        ("Operation failed: " ++ blockingError.message ++ ". Rolled back " ++
          toString applied.length ++ " operations.")),
       { tm with in_transaction := false }) := by
  simp [commitLoop, apply_op_error, rollback_applied_eq]

/-- C2: committing is all-or-nothing.  If commit fails, the error is
`TransactionFailed` and the three stores are exactly what they were
before the commit; if commit succeeds, every buffered op of the batch
is visible afterwards. -/
theorem commit_atomicity (tm : TransactionManager) :
    (∀ e, (commit tm).1 = .error e →
      (∃ msg, e = .transactionFailed msg) ∧ (commit tm).2.stores = tm.stores) ∧
    ((commit tm).1 = .ok () → ∀ op ∈ tm.pending_ops, (commit tm).2.opVisible op) := by
  by_cases htx : tm.in_transaction
  · cases hops : tm.pending_ops with
    | nil =>
      constructor
      · intro e he
        simp [commit, htx, hops, commitLoop] at he
      · intro _ op hop
        exact absurd hop (List.not_mem_nil op)
    | cons op rest =>
      constructor
      · intro e he
        simp only [commit, if_pos htx, hops, commitLoop_cons] at he ⊢
        injection he with h2
        exact ⟨⟨_, h2.symm⟩, rfl⟩
      · intro hok
        simp [commit, htx, hops, commitLoop_cons] at hok
  · constructor
    · intro e he
      simp only [commit, if_neg htx] at he ⊢
      injection he with h2
      exact ⟨⟨_, h2.symm⟩, by trivial⟩
    · intro hok
      simp [commit, htx] at hok

end TransactionManager

/-- C2 witness: committing the concrete batch
`[InsertNode(A), InsertNode(B), InsertEdge(Calls, A, C)]` (with `C`
absent) returns `TransactionFailed`, and afterwards `get_node(A)`,
`get_node(B)` are `None`, the edge count is `0`, and all three stores
equal their pre-commit state. -/
theorem commit_atomicity_witness :
    (TransactionManager.commit tmScenario).1 =
      .error (.transactionFailed
        ("Operation failed: Internal error: Use synchronous methods for in-memory stores. Rolled back 0 operations.")) ∧
    (TransactionManager.commit tmScenario).2.stores = tmScenario.stores ∧
    (TransactionManager.commit tmScenario).2.graph_store.get_node 21 = none ∧
    (TransactionManager.commit tmScenario).2.graph_store.get_node 22 = none ∧
    (TransactionManager.commit tmScenario).2.graph_store.edge_count = 0 := by
  have herr : (TransactionManager.commit tmScenario).1 =
      .error (.transactionFailed
        ("Operation failed: Internal error: Use synchronous methods for in-memory stores. Rolled back 0 operations.")) := rfl
  exact ⟨herr,
    ((TransactionManager.commit_atomicity tmScenario).1 _ herr).2, rfl, rfl, rfl⟩

/-! ## Claim C7 — remove_node cascades -/

namespace InMemoryGraphStore

/-- The loop state type of `removeNodeLoop`. -/
abbrev LoopState :=
  List (Uuid × Edge) × List (Uuid × List Uuid) × List (Uuid × List Uuid)

theorem removeNodeLoop_cons_none (id eid : Uuid) (rest : List Uuid)
    (st : LoopState) (hl : alookup st.1 eid = none) :
    removeNodeLoop id (eid :: rest) st = removeNodeLoop id rest st := by
  obtain ⟨a, b, c⟩ := st
  simp only [removeNodeLoop]
  rw [hl]

theorem removeNodeLoop_cons_src (id eid : Uuid) (rest : List Uuid)
    (st : LoopState) (edge : Edge) (hl : alookup st.1 eid = some edge)
    (hs : edge.source_id = id) :
    removeNodeLoop id (eid :: rest) st =
      removeNodeLoop id rest
        (aerase st.1 eid, st.2.1,
         aadjust st.2.2 edge.target_id (fun l => l.filter (· ≠ eid))) := by
  obtain ⟨a, b, c⟩ := st
  simp only [removeNodeLoop]
  rw [hl]
  simp [hs]

theorem removeNodeLoop_cons_tgt (id eid : Uuid) (rest : List Uuid)
    (st : LoopState) (edge : Edge) (hl : alookup st.1 eid = some edge)
    (hs : edge.source_id ≠ id) :
    removeNodeLoop id (eid :: rest) st =
      removeNodeLoop id rest
        (aerase st.1 eid,
         aadjust st.2.1 edge.source_id (fun l => l.filter (· ≠ eid)), st.2.2) := by
  obtain ⟨a, b, c⟩ := st
  simp only [removeNodeLoop]
  rw [hl]
  simp [hs]

theorem removeNodeLoop_append (id : Uuid) (l₁ l₂ : List Uuid) (st : LoopState) :
    removeNodeLoop id (l₁ ++ l₂) st =
      removeNodeLoop id l₂ (removeNodeLoop id l₁ st) := by
  induction l₁ generalizing st with
  | nil => rfl
  | cons eid rest ih =>
    rw [List.cons_append]
    cases hl : alookup st.1 eid with
    | none =>
      rw [removeNodeLoop_cons_none _ _ _ _ hl, removeNodeLoop_cons_none _ _ _ _ hl, ih]
    | some edge =>
      by_cases hs : edge.source_id = id
      · rw [removeNodeLoop_cons_src _ _ _ _ _ hl hs,
          removeNodeLoop_cons_src _ _ _ _ _ hl hs, ih]
      · rw [removeNodeLoop_cons_tgt _ _ _ _ _ hl hs,
          removeNodeLoop_cons_tgt _ _ _ _ _ hl hs, ih]

theorem removeNodeLoop_edges_mono {id : Uuid} {todo : List Uuid} {st : LoopState}
    {k : Uuid} {v : Edge}
    (h : alookup (removeNodeLoop id todo st).1 k = some v) :
    alookup st.1 k = some v := by
  induction todo generalizing st with
  | nil => exact h
  | cons eid rest ih =>
    cases hl : alookup st.1 eid with
    | none =>
      rw [removeNodeLoop_cons_none _ _ _ _ hl] at h
      exact ih h
    | some edge =>
      by_cases hk : eid = k
      · subst hk
        by_cases hs : edge.source_id = id
        · rw [removeNodeLoop_cons_src _ _ _ _ _ hl hs] at h
          have h2 := ih h
          simp at h2
        · rw [removeNodeLoop_cons_tgt _ _ _ _ _ hl hs] at h
          have h2 := ih h
          simp at h2
      · by_cases hs : edge.source_id = id
        · rw [removeNodeLoop_cons_src _ _ _ _ _ hl hs] at h
          have h2 := ih h
          rwa [alookup_aerase_ne _ hk] at h2
        · rw [removeNodeLoop_cons_tgt _ _ _ _ _ hl hs] at h
          have h2 := ih h
          rwa [alookup_aerase_ne _ hk] at h2

theorem removeNodeLoop_edges_none {id : Uuid} {todo : List Uuid} {st : LoopState}
    {k : Uuid} (h : alookup st.1 k = none) :
    alookup (removeNodeLoop id todo st).1 k = none := by
  cases hfin : alookup (removeNodeLoop id todo st).1 k with
  | none => rfl
  | some v => rw [removeNodeLoop_edges_mono hfin] at h; cases h

theorem removeNodeLoop_erases {id : Uuid} {todo : List Uuid} {st : LoopState}
    {eid : Uuid} (h : eid ∈ todo) :
    alookup (removeNodeLoop id todo st).1 eid = none := by
  induction todo generalizing st with
  | nil => cases h
  | cons e' rest ih =>
    cases hl : alookup st.1 e' with
    | none =>
      rw [removeNodeLoop_cons_none _ _ _ _ hl]
      rcases List.mem_cons.mp h with rfl | hmem
      · exact removeNodeLoop_edges_none hl
      · exact ih hmem
    | some edge =>
      by_cases hs : edge.source_id = id
      · rw [removeNodeLoop_cons_src _ _ _ _ _ hl hs]
        rcases List.mem_cons.mp h with rfl | hmem
        · exact removeNodeLoop_edges_none (by simp)
        · exact ih hmem
      · rw [removeNodeLoop_cons_tgt _ _ _ _ _ hl hs]
        rcases List.mem_cons.mp h with rfl | hmem
        · exact removeNodeLoop_edges_none (by simp)
        · exact ih hmem

theorem removeNodeLoop_edges_preserve {id : Uuid} {todo : List Uuid}
    {st : LoopState} {k : Uuid} (h : k ∉ todo) :
    alookup (removeNodeLoop id todo st).1 k = alookup st.1 k := by
  induction todo generalizing st with
  | nil => rfl
  | cons e' rest ih =>
    have hk : k ∉ rest := fun hc => h (List.mem_cons_of_mem _ hc)
    have hne : e' ≠ k := fun hc => h (hc ▸ List.mem_cons_self _ _)
    cases hl : alookup st.1 e' with
    | none =>
      rw [removeNodeLoop_cons_none _ _ _ _ hl]
      exact ih hk
    | some edge =>
      by_cases hs : edge.source_id = id
      · rw [removeNodeLoop_cons_src _ _ _ _ _ hl hs, ih hk]
        exact alookup_aerase_ne _ hne
      · rw [removeNodeLoop_cons_tgt _ _ _ _ _ hl hs, ih hk]
        exact alookup_aerase_ne _ hne

theorem removeNodeLoop_inb_mono {id : Uuid} {todo : List Uuid} {st : LoopState}
    {k x : Uuid}
    (h : x ∈ (alookup (removeNodeLoop id todo st).2.2 k).getD []) :
    x ∈ (alookup st.2.2 k).getD [] := by
  induction todo generalizing st with
  | nil => exact h
  | cons e' rest ih =>
    cases hl : alookup st.1 e' with
    | none =>
      rw [removeNodeLoop_cons_none _ _ _ _ hl] at h
      exact ih h
    | some edge =>
      by_cases hs : edge.source_id = id
      · rw [removeNodeLoop_cons_src _ _ _ _ _ hl hs] at h
        have h2 := ih h
        rw [alookup_aadjust] at h2
        by_cases ht : edge.target_id = k
        · rw [if_pos ht, ht] at h2
          cases hil : alookup st.2.2 k with
          | none => rw [hil] at h2; simp at h2
          | some l =>
            rw [hil] at h2
            simp only [Option.map_some', Option.getD_some] at h2
            simpa using List.mem_of_mem_filter h2
        · rw [if_neg ht] at h2
          exact h2
      · rw [removeNodeLoop_cons_tgt _ _ _ _ _ hl hs] at h
        have h2 := ih h
        exact h2

theorem removeNodeLoop_outb_mono {id : Uuid} {todo : List Uuid} {st : LoopState}
    {k x : Uuid}
    (h : x ∈ (alookup (removeNodeLoop id todo st).2.1 k).getD []) :
    x ∈ (alookup st.2.1 k).getD [] := by
  induction todo generalizing st with
  | nil => exact h
  | cons e' rest ih =>
    cases hl : alookup st.1 e' with
    | none =>
      rw [removeNodeLoop_cons_none _ _ _ _ hl] at h
      exact ih h
    | some edge =>
      by_cases hs : edge.source_id = id
      · rw [removeNodeLoop_cons_src _ _ _ _ _ hl hs] at h
        have h2 := ih h
        exact h2
      · rw [removeNodeLoop_cons_tgt _ _ _ _ _ hl hs] at h
        have h2 := ih h
        rw [alookup_aadjust] at h2
        by_cases hsk : edge.source_id = k
        · rw [if_pos hsk, hsk] at h2
          cases hil : alookup st.2.1 k with
          | none => rw [hil] at h2; simp at h2
          | some l =>
            rw [hil] at h2
            simp only [Option.map_some', Option.getD_some] at h2
            simpa using List.mem_of_mem_filter h2
        · rw [if_neg hsk] at h2
          exact h2

theorem removeNodeLoop_clears_inb {id : Uuid} {pre post : List Uuid}
    {st : LoopState} {eid : Uuid} {e : Edge}
    (hpre : eid ∉ pre) (hlook : alookup st.1 eid = some e)
    (hsrc : e.source_id = id) :
    eid ∉ (alookup (removeNodeLoop id (pre ++ eid :: post) st).2.2 e.target_id).getD [] := by
  have hl1 : alookup (removeNodeLoop id pre st).1 eid = some e :=
    (removeNodeLoop_edges_preserve hpre).trans hlook
  rw [removeNodeLoop_append, removeNodeLoop_cons_src _ _ _ _ _ hl1 hsrc]
  intro hmem
  have h2 := removeNodeLoop_inb_mono hmem
  rw [alookup_aadjust, if_pos rfl] at h2
  cases hil : alookup (removeNodeLoop id pre st).2.2 e.target_id with
  | none => rw [hil] at h2; simp at h2
  | some l =>
    rw [hil] at h2
    simp only [Option.map_some', Option.getD_some] at h2
    simp [List.mem_filter] at h2

theorem removeNodeLoop_clears_outb {id : Uuid} {pre post : List Uuid}
    {st : LoopState} {eid : Uuid} {e : Edge}
    (hpre : eid ∉ pre) (hlook : alookup st.1 eid = some e)
    (hsrc : e.source_id ≠ id) :
    eid ∉ (alookup (removeNodeLoop id (pre ++ eid :: post) st).2.1 e.source_id).getD [] := by
  have hl1 : alookup (removeNodeLoop id pre st).1 eid = some e :=
    (removeNodeLoop_edges_preserve hpre).trans hlook
  rw [removeNodeLoop_append, removeNodeLoop_cons_tgt _ _ _ _ _ hl1 hsrc]
  intro hmem
  have h2 := removeNodeLoop_outb_mono hmem
  rw [alookup_aadjust, if_pos rfl] at h2
  cases hil : alookup (removeNodeLoop id pre st).2.1 e.source_id with
  | none => rw [hil] at h2; simp at h2
  | some l =>
    rw [hil] at h2
    simp only [Option.map_some', Option.getD_some] at h2
    simp [List.mem_filter] at h2

end InMemoryGraphStore

open InMemoryGraphStore in
/-- C7: on an adjacency-consistent store, `remove_node(id)` deletes
every edge in which `id` appears as source or target, removes the
edge's adjacency entry at the opposite endpoint, and keeps every other
edge; concretely, with nodes `A, B, C` and edges `A→B`, `B→C` (all
built by `add_node`/`add_edge`), `remove_node(B)` leaves 2 nodes, 0
edges, `get_neighbors(A) = []` and `get_inbound(C) = []`. -/
theorem remove_node_cascades :
    (∀ (g : InMemoryGraphStore) (id : Uuid) (g' : InMemoryGraphStore),
        g.GraphWF → g.remove_node id = .ok g' →
        (∀ eid e, alookup g.edges eid = some e →
            e.source_id = id ∨ e.target_id = id → alookup g'.edges eid = none) ∧
        (∀ eid e, alookup g.edges eid = some e → e.source_id = id →
            e.target_id ≠ id → eid ∉ (alookup g'.inbound e.target_id).getD []) ∧
        (∀ eid e, alookup g.edges eid = some e → e.target_id = id →
            e.source_id ≠ id → eid ∉ (alookup g'.outbound e.source_id).getD []) ∧
        (∀ eid e, alookup g.edges eid = some e → e.source_id ≠ id →
            e.target_id ≠ id → alookup g'.edges eid = some e)) ∧
    (((((InMemoryGraphStore.newStore.add_node cnA).bind
        (fun g => g.add_node cnB)).bind (fun g => g.add_node cnC)).bind
        (fun g => g.add_edge edgeAB)).bind (fun g => g.add_edge edgeBC)
      = .ok graphABC) ∧
    graphABC.remove_node 2 = .ok graphABCAfter ∧
    graphABCAfter.node_count = 2 ∧
    graphABCAfter.edge_count = 0 ∧
    graphABCAfter.get_neighbors 1 none = [] ∧
    graphABCAfter.get_inbound 3 none = [] := by
  refine ⟨?_, rfl, rfl, rfl, rfl, rfl, rfl⟩
  intro g id g' hwf hrem
  obtain ⟨hcomp, hout, hin⟩ := hwf
  simp only [remove_node, Except.ok.injEq] at hrem
  subst hrem
  have houtE : ∀ eid e, alookup g.edges eid = some e → e.source_id = id →
      eid ∈ (alookup g.outbound id).getD [] := by
    intro eid e hlook hsrc
    have h1 := (hcomp _ (mem_of_alookup hlook)).1
    rw [outList, hsrc] at h1
    exact h1
  have hinE : ∀ eid e, alookup g.edges eid = some e → e.target_id = id →
      eid ∈ (alookup g.inbound id).getD [] := by
    intro eid e hlook htgt
    have h1 := (hcomp _ (mem_of_alookup hlook)).2
    rw [inList, htgt] at h1
    exact h1
  refine ⟨?_, ?_, ?_, ?_⟩
  · -- every edge touching id is deleted
    intro eid e hlook hor
    apply removeNodeLoop_erases
    rcases hor with hsrc | htgt
    · exact List.mem_append_left _ (houtE eid e hlook hsrc)
    · exact List.mem_append_right _ (hinE eid e hlook htgt)
  · -- source = id: the inbound entry at the target is cleared
    intro eid e hlook hsrc htne
    have hmem : eid ∈ (alookup g.outbound id).getD [] := houtE eid e hlook hsrc
    cases halo : alookup g.outbound id with
    | none => rw [halo] at hmem; cases hmem
    | some l =>
      rw [halo, Option.getD_some] at hmem
      obtain ⟨hsound, hnodup⟩ := hout _ (mem_of_alookup halo)
      obtain ⟨pre, post, rfl⟩ := List.append_of_mem hmem
      have hpre : eid ∉ pre := by
        intro hc
        exact (List.nodup_append.mp hnodup).2.2 hc (List.mem_cons_self _ _)
      have hnotin : eid ∉ (alookup g.inbound id).getD [] := by
        intro hc
        cases hali : alookup g.inbound id with
        | none => rw [hali] at hc; cases hc
        | some l' =>
          rw [hali, Option.getD_some] at hc
          have := (hin _ (mem_of_alookup hali)).1 eid hc
          rw [hlook] at this
          simp only [Option.map_some', Option.some.injEq] at this
          exact htne this
      rw [alookup_aerase_ne _ (fun hc => htne hc.symm)]
      have hshape :
          (pre ++ eid :: post) ++ (alookup g.inbound id).getD [] =
            pre ++ eid :: (post ++ (alookup g.inbound id).getD []) := by
        simp
      simp only [Option.getD_some]
      rw [hshape]
      exact removeNodeLoop_clears_inb hpre hlook hsrc
  · -- target = id: the outbound entry at the source is cleared
    intro eid e hlook htgt hsne
    have hmem : eid ∈ (alookup g.inbound id).getD [] := hinE eid e hlook htgt
    cases hali : alookup g.inbound id with
    | none => rw [hali] at hmem; cases hmem
    | some l =>
      rw [hali, Option.getD_some] at hmem
      obtain ⟨hsound, hnodup⟩ := hin _ (mem_of_alookup hali)
      obtain ⟨pre, post, rfl⟩ := List.append_of_mem hmem
      have hpre : eid ∉ pre := by
        intro hc
        exact (List.nodup_append.mp hnodup).2.2 hc (List.mem_cons_self _ _)
      have hnotout : eid ∉ (alookup g.outbound id).getD [] := by
        intro hc
        cases halo : alookup g.outbound id with
        | none => rw [halo] at hc; cases hc
        | some l' =>
          rw [halo, Option.getD_some] at hc
          have := (hout _ (mem_of_alookup halo)).1 eid hc
          rw [hlook] at this
          simp only [Option.map_some', Option.some.injEq] at this
          exact hsne this
      rw [alookup_aerase_ne _ (fun hc => hsne hc.symm)]
      have hpre2 : eid ∉ (alookup g.outbound id).getD [] ++ pre := by
        intro hc
        rcases List.mem_append.mp hc with hc | hc
        · exact hnotout hc
        · exact hpre hc
      have hshape :
          (alookup g.outbound id).getD [] ++ (pre ++ eid :: post) =
            ((alookup g.outbound id).getD [] ++ pre) ++ eid :: post := by
        simp
      simp only [Option.getD_some]
      rw [hshape]
      exact removeNodeLoop_clears_outb hpre2 hlook hsne
  · -- edges not touching id survive
    intro eid e hlook hsne htne
    rw [removeNodeLoop_edges_preserve]
    · exact hlook
    · intro hc
      rcases List.mem_append.mp hc with hc | hc
      · cases halo : alookup g.outbound id with
        | none => rw [halo] at hc; cases hc
        | some l =>
          rw [halo, Option.getD_some] at hc
          have := (hout _ (mem_of_alookup halo)).1 eid hc
          rw [hlook] at this
          simp only [Option.map_some', Option.some.injEq] at this
          exact hsne this
      · cases hali : alookup g.inbound id with
        | none => rw [hali] at hc; cases hc
        | some l =>
          rw [hali, Option.getD_some] at hc
          have := (hin _ (mem_of_alookup hali)).1 eid hc
          rw [hlook] at this
          simp only [Option.map_some', Option.some.injEq] at this
          exact htne this

/-- C7 witness: the cascade theorem applied to the concrete
`A, B, C` store — both edges are gone from the edge map, `A`'s
outbound list no longer holds the `A→B` edge, and `C`'s inbound list
no longer holds the `B→C` edge. -/
theorem remove_node_cascades_witness :
    alookup graphABCAfter.edges 10 = none ∧
    alookup graphABCAfter.edges 11 = none ∧
    (10 : Uuid) ∉ (alookup graphABCAfter.outbound 1).getD [] ∧
    (11 : Uuid) ∉ (alookup graphABCAfter.inbound 3).getD [] := by
  have h := remove_node_cascades.1 graphABC 2 graphABCAfter (by decide) rfl
  exact ⟨h.1 10 edgeAB rfl (Or.inr rfl), h.1 11 edgeBC rfl (Or.inl rfl),
    h.2.2.1 10 edgeAB rfl rfl (by decide), h.2.1 11 edgeBC rfl rfl (by decide)⟩

/-! ## Claim C1 — add_edge endpoint checks -/

/-- C1 (code bug in the RocksDB store): the in-memory `add_edge` fails
with `NodeNotFound(U2)` when the target is missing and, failing before
any write, leaves the store unchanged; but `RocksGraphStore::add_edge`
on a database containing neither endpoint succeeds and writes the edge
record and both adjacency keys, although neither `U1` nor `U2`
resolves to a node. -/
theorem rocks_add_edge_skips_endpoint_check :
    InMemoryGraphStore.newStore.add_node nodeU1 = .ok graphWithU1 ∧
    graphWithU1.add_edge edgeU1U2 = .error (.nodeNotFound 2) ∧
    RocksGraphStore.emptyStore.add_edge edgeU1U2 =
      .ok { nodes := [], edges := [(10, edgeU1U2)],
            out_adj := [((1, 10), ())], in_adj := [((2, 10), ())] } ∧
    RocksGraphStore.emptyStore.get_node 1 = none ∧
    RocksGraphStore.emptyStore.get_node 2 = none := by
  refine ⟨rfl, ?_, rfl, rfl, rfl⟩
  rfl

/-! ## Claim C5 — vector search top-k shape and tie order -/

theorem siftUp_length (fuel : Nat) :
    ∀ (l : List ScoredItem) (i : Nat), (siftUp fuel l i).length = l.length := by
  induction fuel with
  | zero => intro l i; rfl
  | succ f ih =>
    intro l i
    cases i with
    | zero => rfl
    | succ i =>
      simp only [siftUp]
      split
      · split
        · rw [ih]
          simp [List.length_set]
        · rfl
      · rfl

theorem heapPush_length (l : List ScoredItem) (x : ScoredItem) :
    (heapPush l x).length = l.length + 1 := by
  rw [heapPush, siftUp_length]
  simp

theorem siftDown_length (fuel : Nat) :
    ∀ (l : List ScoredItem) (i : Nat), (siftDown fuel l i).length = l.length := by
  induction fuel with
  | zero => intro l i; rfl
  | succ f ih =>
    intro l i
    simp only [siftDown]
    split
    · split
      · rw [ih]
        simp [List.length_set]
      · rfl
    · rfl

theorem heapPop_length (l : List ScoredItem) :
    (heapPop l).length = l.length - 1 := by
  unfold heapPop
  split
  · rename_i hl
    rw [List.getLast?_eq_none_iff] at hl
    subst hl
    rfl
  · rename_i last hl
    split
    · rename_i hd
      have h1 := congrArg List.length hd
      have h2 := List.length_dropLast l
      simp only [List.length_nil] at h1
      simp only [List.length_nil]
      omega
    · rename_i b rest hd
      rw [siftDown_length, List.length_set, ← hd, List.length_dropLast]

namespace InMemoryVectorStore

theorem searchFold_length_lt (q : List ℝ) (k : Nat) (h : List ScoredItem)
    (item : Uuid × List ℝ) (hlt : h.length < k) :
    (searchFold q k h item).length = h.length + 1 := by
  simp only [searchFold]
  rw [if_pos hlt, heapPush_length]

theorem searchFold_length_ge (q : List ℝ) (k : Nat) (h : List ScoredItem)
    (item : Uuid × List ℝ) (hge : ¬ h.length < k) :
    (searchFold q k h item).length = h.length := by
  simp only [searchFold]
  rw [if_neg hge]
  split
  · rename_i mn hmn
    split
    · rw [heapPush_length, heapPop_length]
      rcases List.get?_eq_some.mp hmn with ⟨h0, _⟩
      omega
    · rfl
  · rfl

theorem foldl_searchFold_length (q : List ℝ) (k : Nat) :
    ∀ (l : List (Uuid × List ℝ)) (acc : List ScoredItem), acc.length ≤ k →
      (l.foldl (searchFold q k) acc).length = min k (acc.length + l.length) := by
  intro l
  induction l with
  | nil =>
    intro acc hacc
    rw [List.foldl_nil]
    simp only [List.length_nil]
    omega
  | cons a l ih =>
    intro acc hacc
    rw [List.foldl_cons]
    by_cases hlt : acc.length < k
    · have h1 := searchFold_length_lt q k acc a hlt
      have h2 := ih (searchFold q k acc a) (by rw [h1]; omega)
      rw [h2, h1]
      simp only [List.length_cons]
      omega
    · have h1 := searchFold_length_ge q k acc a hlt
      have h2 := ih (searchFold q k acc a) (by rw [h1]; omega)
      rw [h2, h1]
      simp only [List.length_cons]
      omega

theorem insertDesc_length (x : ScoredItem) :
    ∀ l : List ScoredItem, (insertDesc x l).length = l.length + 1 := by
  intro l
  induction l with
  | nil => rfl
  | cons y l ih =>
    simp only [insertDesc]
    split
    · rfl
    · simp only [List.length_cons, ih]

theorem sortDesc_cons (a : ScoredItem) (l : List ScoredItem) :
    sortDesc (a :: l) = insertDesc a (sortDesc l) := rfl

theorem sortDesc_length : ∀ l : List ScoredItem, (sortDesc l).length = l.length := by
  intro l
  induction l with
  | nil => rfl
  | cons a l ih => rw [sortDesc_cons, insertDesc_length, ih, List.length_cons]

theorem mem_insertDesc (a x : ScoredItem) :
    ∀ l : List ScoredItem, a ∈ insertDesc x l ↔ a = x ∨ a ∈ l := by
  intro l
  induction l with
  | nil => simp [insertDesc]
  | cons y l ih =>
    simp only [insertDesc]
    split
    · simp [List.mem_cons]
    · simp only [List.mem_cons, ih]
      tauto

theorem insertDesc_pairwise (x : ScoredItem) :
    ∀ l : List ScoredItem, l.Pairwise (fun a b => b.2 ≤ a.2) →
      (insertDesc x l).Pairwise (fun a b => b.2 ≤ a.2) := by
  intro l
  induction l with
  | nil => intro _; simp [insertDesc]
  | cons y l ih =>
    intro h
    rw [List.pairwise_cons] at h
    obtain ⟨hy, hl⟩ := h
    simp only [insertDesc]
    split
    · rename_i hc
      rw [List.pairwise_cons]
      refine ⟨?_, List.pairwise_cons.mpr ⟨hy, hl⟩⟩
      intro b hb
      rcases List.mem_cons.mp hb with hb | hb
      · subst hb; exact hc
      · exact (hy b hb).trans hc
    · rename_i hc
      rw [List.pairwise_cons]
      refine ⟨?_, ih hl⟩
      intro b hb
      rcases (mem_insertDesc b x l).mp hb with hb | hb
      · subst hb; exact le_of_not_le hc
      · exact hy b hb

theorem sortDesc_pairwise :
    ∀ l : List ScoredItem, (sortDesc l).Pairwise (fun a b => b.2 ≤ a.2) := by
  intro l
  induction l with
  | nil => simp [sortDesc]
  | cons a l ih => rw [sortDesc_cons]; exact insertDesc_pairwise a (sortDesc l) ih

theorem mem_sortDesc (a : ScoredItem) :
    ∀ l : List ScoredItem, a ∈ sortDesc l ↔ a ∈ l := by
  intro l
  induction l with
  | nil => simp [sortDesc]
  | cons b l ih =>
    rw [sortDesc_cons, mem_insertDesc, ih]
    simp [List.mem_cons]

end InMemoryVectorStore

theorem mem_of_siftUp (fuel : Nat) :
    ∀ (l : List ScoredItem) (i : Nat) (a : ScoredItem),
      a ∈ siftUp fuel l i → a ∈ l := by
  induction fuel with
  | zero => intro l i a h; exact h
  | succ f ih =>
    intro l i a h
    cases i with
    | zero => exact h
    | succ i =>
      simp only [siftUp] at h
      split at h
      · rename_i x p hx hp
        split at h
        · have h2 := ih _ _ _ h
          rcases List.mem_or_eq_of_mem_set h2 with h3 | h3
          · rcases List.mem_or_eq_of_mem_set h3 with h4 | h4
            · exact h4
            · subst h4; exact List.get?_mem hp
          · subst h3; exact List.get?_mem hx
        · exact h
      · exact h

theorem mem_of_heapPush (l : List ScoredItem) (x a : ScoredItem)
    (h : a ∈ heapPush l x) : a ∈ l ∨ a = x := by
  rw [heapPush] at h
  have h2 := mem_of_siftUp _ _ _ _ h
  rcases List.mem_append.mp h2 with h3 | h3
  · exact Or.inl h3
  · exact Or.inr (List.mem_singleton.mp h3)

theorem mem_of_siftDown (fuel : Nat) :
    ∀ (l : List ScoredItem) (i : Nat) (a : ScoredItem),
      a ∈ siftDown fuel l i → a ∈ l := by
  induction fuel with
  | zero => intro l i a h; exact h
  | succ f ih =>
    intro l i a h
    simp only [siftDown] at h
    split at h
    · rename_i x lc hx hlc
      split at h
      · have h2 := ih _ _ _ h
        rcases List.mem_or_eq_of_mem_set h2 with h3 | h3
        · rcases List.mem_or_eq_of_mem_set h3 with h4 | h4
          · exact h4
          · subst h4
            cases hrc : l.get? (2 * i + 2) with
            | none => exact List.get?_mem hlc
            | some rc =>
              show (if rc.2 ≤ lc.2 then ((2 * i + 2 : Nat), rc)
                else (2 * i + 1, lc)).2 ∈ l
              split
              · exact List.get?_mem hrc
              · exact List.get?_mem hlc
        · subst h3; exact List.get?_mem hx
      · exact h
    · exact h

theorem mem_of_heapPop (l : List ScoredItem) (a : ScoredItem)
    (h : a ∈ heapPop l) : a ∈ l := by
  unfold heapPop at h
  split at h
  · exact absurd h (List.not_mem_nil a)
  · rename_i last hl
    split at h
    · exact absurd h (List.not_mem_nil a)
    · rename_i b rest hd
      have h2 := mem_of_siftDown _ _ _ _ h
      rcases List.mem_or_eq_of_mem_set h2 with h3 | h3
      · exact (List.dropLast_sublist l).mem (hd ▸ h3)
      · subst h3
        have hne : l ≠ [] := by
          intro h0; subst h0; simp at hl
        rw [List.getLast?_eq_getLast l hne] at hl
        injection hl with hl2
        rw [← hl2]
        exact List.getLast_mem hne

namespace InMemoryVectorStore

theorem mem_of_searchFold (q : List ℝ) (k : Nat) (h : List ScoredItem)
    (item : Uuid × List ℝ) (a : ScoredItem) (hmem : a ∈ searchFold q k h item) :
    a ∈ h ∨ a = (item.1, cosine_similarity q item.2) := by
  simp only [searchFold] at hmem
  split at hmem
  · exact mem_of_heapPush _ _ _ hmem
  · split at hmem
    · split at hmem
      · rcases mem_of_heapPush _ _ _ hmem with h2 | h2
        · exact Or.inl (mem_of_heapPop _ _ h2)
        · exact Or.inr h2
      · exact Or.inl hmem
    · exact Or.inl hmem

theorem mem_foldl_searchFold (q : List ℝ) (k : Nat) :
    ∀ (l : List (Uuid × List ℝ)) (acc : List ScoredItem) (a : ScoredItem),
      a ∈ l.foldl (searchFold q k) acc →
      a ∈ acc ∨ ∃ p ∈ l, a = (p.1, cosine_similarity q p.2) := by
  intro l
  induction l with
  | nil => intro acc a h; exact Or.inl h
  | cons b l ih =>
    intro acc a h
    rw [List.foldl_cons] at h
    rcases ih _ _ h with h2 | ⟨p, hp, he⟩
    · rcases mem_of_searchFold q k acc b a h2 with h3 | h3
      · exact Or.inl h3
      · exact Or.inr ⟨b, List.mem_cons_self b l, h3⟩
    · exact Or.inr ⟨p, List.mem_cons_of_mem b hp, he⟩

theorem search_ok_eq {s : InMemoryVectorStore} {q : List ℝ} {k : Nat}
    {r : List ScoredItem} (h : s.search q k = .ok r) :
    r = sortDesc (s.embeddings.foldl (searchFold q k) []) := by
  unfold search at h
  split at h
  · split at h
    · exact absurd h (by simp)
    · injection h with h2; exact h2.symm
  · injection h with h2; exact h2.symm

theorem cosine_similarity_eq (a b : List ℝ) : cosine_similarity a b =
    if Real.sqrt ((a.map (fun x => x * x)).sum) = 0 ∨
        Real.sqrt ((b.map (fun x => x * x)).sum) = 0 then 0
    else ((a.zip b).map (fun p => p.1 * p.2)).sum /
      (Real.sqrt ((a.map (fun x => x * x)).sum) *
        Real.sqrt ((b.map (fun x => x * x)).sum)) := rfl

theorem norm_query : Real.sqrt ((([1, 0] : List ℝ).map (fun x => x * x)).sum) = 1 := by
  norm_num [Real.sqrt_one]

theorem norm_vec_a : Real.sqrt ((([4, 3] : List ℝ).map (fun x => x * x)).sum) = 5 := by
  have h : ((([4, 3] : List ℝ).map (fun x => x * x)).sum) = 25 := by norm_num
  rw [h, show (25:ℝ) = 5^2 by norm_num, Real.sqrt_sq (by norm_num : (0:ℝ) ≤ 5)]

theorem norm_vec_b : Real.sqrt ((([4, -3] : List ℝ).map (fun x => x * x)).sum) = 5 := by
  have h : ((([4, -3] : List ℝ).map (fun x => x * x)).sum) = 25 := by norm_num
  rw [h, show (25:ℝ) = 5^2 by norm_num, Real.sqrt_sq (by norm_num : (0:ℝ) ≤ 5)]

theorem cos_query_a : cosine_similarity [1, 0] [4, 3] = 4/5 := by
  rw [cosine_similarity_eq, norm_query, norm_vec_a, if_neg (by norm_num)]
  norm_num [List.zip_cons_cons]

theorem cos_query_b : cosine_similarity [1, 0] [4, -3] = 4/5 := by
  rw [cosine_similarity_eq, norm_query, norm_vec_b, if_neg (by norm_num)]
  norm_num [List.zip_cons_cons]

theorem cos_query_c : cosine_similarity [1, 0] [1, 0] = 1 := by
  rw [cosine_similarity_eq, norm_query, if_neg (by norm_num)]
  norm_num [List.zip_cons_cons]

end InMemoryVectorStore

theorem heapPush_nil (x : ScoredItem) : heapPush [] x = [x] := rfl

theorem heapPush_one (y x : ScoredItem) (h : ¬ x.2 < y.2) :
    heapPush [y] x = [y, x] := by
  show siftUp (1 + 1) [y, x] (0 + 1) = [y, x]
  simp only [siftUp]
  simp [h]

theorem heapPop_two (a b : ScoredItem) : heapPop [a, b] = [b] := by
  show siftDown 2 ([a].set 0 b) 0 = [b]
  rfl

namespace InMemoryVectorStore

theorem searchFold_push (q : List ℝ) (k : Nat) (h : List ScoredItem)
    (item : Uuid × List ℝ) (hlt : h.length < k) :
    searchFold q k h item = heapPush h (item.1, cosine_similarity q item.2) := by
  simp only [searchFold]
  rw [if_pos hlt]

theorem searchFold_replace (q : List ℝ) (k : Nat) (h : List ScoredItem)
    (item : Uuid × List ℝ) (mn : ScoredItem) (hge : ¬ h.length < k)
    (hmn : h.get? 0 = some mn) (hsc : mn.2 < cosine_similarity q item.2) :
    searchFold q k h item = heapPush (heapPop h) (item.1, cosine_similarity q item.2) := by
  simp only [searchFold]
  rw [if_neg hge, hmn]
  simp [hsc]

theorem sf_step1 : searchFold [1, 0] 2 [] (1, [4, 3]) = [(1, 4/5)] := by
  rw [searchFold_push [1, 0] 2 [] (1, [4, 3]) (by norm_num)]
  show heapPush [] (1, cosine_similarity [1, 0] [4, 3]) = [(1, 4/5)]
  rw [heapPush_nil, cos_query_a]

theorem sf_step2 :
    searchFold [1, 0] 2 [(1, 4/5)] (2, [4, -3]) = [(1, 4/5), (2, 4/5)] := by
  rw [searchFold_push [1, 0] 2 [(1, 4/5)] (2, [4, -3]) (by norm_num)]
  show heapPush [(1, 4/5)] (2, cosine_similarity [1, 0] [4, -3]) = [(1, 4/5), (2, 4/5)]
  rw [cos_query_b]
  exact heapPush_one (1, 4/5) (2, 4/5) (by norm_num)

theorem sf_step3 :
    searchFold [1, 0] 2 [(1, 4/5), (2, 4/5)] (3, [1, 0]) = [(2, 4/5), (3, 1)] := by
  rw [searchFold_replace [1, 0] 2 [(1, 4/5), (2, 4/5)] (3, [1, 0]) (1, 4/5)
    (by norm_num) rfl
    (by show (4:ℝ)/5 < cosine_similarity [1, 0] [1, 0]; rw [cos_query_c]; norm_num)]
  rw [heapPop_two]
  show heapPush [(2, 4/5)] (3, cosine_similarity [1, 0] [1, 0]) = [(2, 4/5), (3, 1)]
  rw [cos_query_c]
  exact heapPush_one (2, 4/5) (3, 1) (by norm_num)

theorem fold_cstore :
    cstore.embeddings.foldl (searchFold [1, 0] 2) [] = [(2, 4/5), (3, 1)] := by
  show ([(1, [4, 3]), (2, [4, -3]), (3, [1, 0])] :
    List (Uuid × List ℝ)).foldl (searchFold [1, 0] 2) [] = [(2, 4/5), (3, 1)]
  rw [List.foldl_cons, List.foldl_cons, List.foldl_cons, List.foldl_nil]
  rw [sf_step1, sf_step2, sf_step3]

theorem insertDesc_step :
    insertDesc ((2 : Uuid), (4:ℝ)/5) [(3, 1)] = [(3, 1), (2, 4/5)] := by
  simp only [insertDesc]
  rw [if_neg (by norm_num : ¬ (((3:Uuid), (1:ℝ)) : ScoredItem).2 ≤
    (((2:Uuid), (4/5:ℝ)) : ScoredItem).2)]

theorem sortDesc_heap_eval :
    sortDesc [((2 : Uuid), (4:ℝ)/5), (3, 1)] = [(3, 1), (2, 4/5)] := by
  show insertDesc (2, 4/5) (insertDesc (3, 1) []) = [(3, 1), (2, 4/5)]
  exact insertDesc_step

theorem search_cstore_eval :
    cstore.search [1, 0] 2 = .ok [(3, 1), (2, 4/5)] := by
  show Except.ok (sortDesc (cstore.embeddings.foldl (searchFold [1, 0] 2) [])) =
    Except.ok [(3, 1), (2, 4/5)]
  rw [fold_cstore, sortDesc_heap_eval]

theorem scored_cstore :
    cstore.embeddings.map (fun p => (p.1, cosine_similarity [1, 0] p.2)) =
      [(1, 4/5), (2, 4/5), (3, 1)] := by
  show [((1 : Uuid), cosine_similarity [1, 0] [4, 3]),
    (2, cosine_similarity [1, 0] [4, -3]), (3, cosine_similarity [1, 0] [1, 0])] =
    [(1, 4/5), (2, 4/5), (3, 1)]
  rw [cos_query_a, cos_query_b, cos_query_c]

theorem sortDesc_scored_eval :
    sortDesc [((1 : Uuid), (4:ℝ)/5), (2, 4/5), (3, 1)] =
      [(3, 1), (1, 4/5), (2, 4/5)] := by
  show insertDesc (1, 4/5) (insertDesc (2, 4/5) (insertDesc (3, 1) [])) =
    [(3, 1), (1, 4/5), (2, 4/5)]
  rw [show insertDesc ((2 : Uuid), (4:ℝ)/5) (insertDesc (3, 1) []) =
    [(3, 1), (2, 4/5)] from insertDesc_step]
  simp only [insertDesc]
  rw [if_neg (by norm_num : ¬ (((3:Uuid), (1:ℝ)) : ScoredItem).2 ≤
    (((1:Uuid), (4/5:ℝ)) : ScoredItem).2),
    if_pos (by norm_num : (((2:Uuid), (4/5:ℝ)) : ScoredItem).2 ≤
    (((1:Uuid), (4/5:ℝ)) : ScoredItem).2)]

theorem specSearch_cstore_eval :
    cstore.specSearch [1, 0] 2 = [(3, 1), (1, 4/5)] := by
  show (sortDesc (cstore.embeddings.map
    (fun p => (p.1, cosine_similarity [1, 0] p.2)))).take 2 = [(3, 1), (1, 4/5)]
  rw [scored_cstore, sortDesc_scored_eval]
  rfl

/-- C5 (amended): whenever `search(q, k)` succeeds, it returns exactly
`min(k, embedding_count)` pairs in non-increasing score order, each pair
scoring a genuinely stored vector by cosine similarity, and a zero-norm
query or stored vector yields score `0`.  (The original claim's
"ties broken by insertion order" is refuted by
`search_tie_order_counterexample`.) -/
theorem search_topk_shape (s : InMemoryVectorStore) (q : List ℝ) (k : Nat)
    (r : List ScoredItem) (h : s.search q k = .ok r) :
    r.length = min k s.embeddings.length ∧
    r.Pairwise (fun a b => b.2 ≤ a.2) ∧
    (∀ x ∈ r, ∃ p ∈ s.embeddings, x = (p.1, cosine_similarity q p.2)) ∧
    (∀ a b : List ℝ,
      Real.sqrt ((a.map (fun x => x * x)).sum) = 0 ∨
        Real.sqrt ((b.map (fun x => x * x)).sum) = 0 →
      cosine_similarity a b = 0) := by
  have hr := search_ok_eq h
  subst hr
  refine ⟨?_, sortDesc_pairwise _, ?_, ?_⟩
  · rw [sortDesc_length, foldl_searchFold_length q k s.embeddings [] (by simp)]
    simp
  · intro x hx
    rw [mem_sortDesc] at hx
    rcases mem_foldl_searchFold q k s.embeddings [] x hx with h2 | h2
    · exact absurd h2 (List.not_mem_nil x)
    · exact h2
  · intro a b hab
    rw [cosine_similarity_eq, if_pos hab]

/-- C5 witness: on the concrete three-vector store, `search([1,0], 2)`
succeeds, and the theorem yields the count and ordering facts at that
input. -/
theorem search_topk_shape_witness :
    cstore.search [1, 0] 2 = .ok [(3, 1), (2, 4/5)] ∧
    ([((3 : Uuid), (1 : ℝ)), (2, 4/5)] : List ScoredItem).length =
      min 2 cstore.embeddings.length ∧
    ([((3 : Uuid), (1 : ℝ)), (2, 4/5)] : List ScoredItem).Pairwise
      (fun a b => b.2 ≤ a.2) := by
  refine ⟨search_cstore_eval, ?_, ?_⟩
  · exact (search_topk_shape cstore [1, 0] 2 [(3, 1), (2, 4/5)] search_cstore_eval).1
  · exact (search_topk_shape cstore [1, 0] 2 [(3, 1), (2, 4/5)]
      search_cstore_eval).2.1

/-- C5 counterexample: with vectors `1 ↦ [4,3]`, `2 ↦ [4,-3]`,
`3 ↦ [1,0]` inserted in that order and query `[1,0]` (scores `4/5`,
`4/5`, `1`), the code returns ids `[3, 2]` while descending order with
ties broken by insertion order requires `[3, 1]`: of the two vectors
tied at `4/5`, the heap evicts the first-inserted one, not the
last-inserted one. -/
theorem search_tie_order_counterexample :
    cstore.search [1, 0] 2 = .ok [(3, 1), (2, 4/5)] ∧
    cstore.specSearch [1, 0] 2 = [(3, 1), (1, 4/5)] ∧
    ¬ cstore.search [1, 0] 2 = .ok (cstore.specSearch [1, 0] 2) := by
  refine ⟨search_cstore_eval, specSearch_cstore_eval, ?_⟩
  rw [search_cstore_eval, specSearch_cstore_eval]
  simp

end InMemoryVectorStore

end Onyx
